import Mathlib

/-! Traffic simulation (trafficAmbulance_sim.c): semaphore and mutex coordination.

A shallow embedding of the shared data of `src/trafficAmbulance_sim.c` and of the
code that runs on it, followed by the properties of the one-lane construction zone.

Modelling conventions.

* C `int` fields are `Int`; the queue counts, loop indices and the semaphore value,
  which the program keeps non-negative, are `Nat`.  The id counters only ever
  grow by one per arrival; signed overflow of `east_next_id++` is undefined
  behaviour in C and is outside the model (ids are unbounded integers).
* The fixed-size arrays `east_queue`, `west_queue`, `construction` are lists used as
  backing stores: `a[i]` is `List.getD a i Car.zero`, `a[i] = x` is `List.set a i x`.
  Only the first `count` cells of a queue are live.
* Every `for` loop of the source is a function recursing on the number of iterations
  left, with the loop variable as an explicit argument.
* The log ring, the tick counter and the UI thread only read the shared data or
  write data nothing else reads; they are left out.
* A `car_thread` is a record of its local variables and a program counter; one
  step of a thread is one of its mutex-protected sections, its `sem_wait` or its
  `sem_post`.  Inside `car_thread` the test of `stop` that guards a loop iteration
  is taken together with the section that follows it: the eligibility test writes
  no shared data, and the progress update touches only the progress of the slot of
  the thread, which no other thread reads or writes, so the section can be moved
  before any step that came between the test and it.
* The loops of `generator`, `controller` and `dispatcher` keep their test of `stop`
  as a step of its own: a thread that has passed the test runs its section once
  more even when SIGINT arrives in between, and returns at its next test.
* `main` joins only `controller`, `ui_loop`, `generator`, `dispatcher` and
  `tick_loop` (lines 387-391); the car threads are detached (line 312).  The return
  of `main` ends the process with all its threads; it is an event of the process
  (`procStep`), enabled once the joined threads have returned.  `ui_loop` and
  `tick_loop` are not modelled; they return once `stop` is set.
-/

namespace TrafficSim

/-! ## Constants (lines 11-16) -/

def EAST : Int := 1
def WEST : Int := 2
def MAX_CARS : Nat := 30
def LANE_CAPACITY : Nat := 2
def CROSSING_TIME : Int := 3

/-! ## Data (lines 19-39) -/

/-- The `Car` struct of the source. -/
structure Car where
  id : Int
  direction : Int
  active : Int
  progress : Int
  is_ambulance : Int
deriving DecidableEq

/-- A zero-initialised `Car`, the content of every cell of a global array at start. -/
def Car.zero : Car :=
  { id := 0, direction := 0, active := 0, progress := 0, is_ambulance := 0 }

/-- Program points of `car_thread`, named after what the thread does next. -/
inductive PC where
  /-- In the `while (!stop)` loop of lines 210-216. -/
  | eligibility
  /-- About to call `sem_wait` (line 218). -/
  | sem_wait
  /-- About to run the placement section (lines 220-235). -/
  | placement
  /-- In the crossing loop (lines 237-245). -/
  | crossing
  /-- About to run the release section (lines 247-264). -/
  | release
  /-- About to call `sem_post` (line 266). -/
  | sem_post
  /-- Returned (line 268). -/
  | exited
deriving DecidableEq

/-- Program points of the loop `while (!stop) { ... }` of a service thread. -/
inductive LoopPC where
  /-- About to test `stop`. -/
  | test
  /-- Past the test, about to run the critical section of the loop body. -/
  | body
  /-- Returned: the test found `stop` set. -/
  | returned
deriving DecidableEq

/-- The modelled service threads that `main` creates and joins. -/
inductive Service where
  | generator
  | controller
  | dispatcher
deriving DecidableEq

/-- A running `car_thread`: the heap copy `*car`, the program point and the loop
variable `t` of the crossing loop. -/
structure Thread where
  car : Car
  pc : PC
  t : Int
deriving DecidableEq

/-- The shared variables of the program, the semaphore value and the spawned threads. -/
structure State where
  east_queue : List Car
  west_queue : List Car
  construction : List Car
  east_count : Nat
  west_count : Nat
  east_next_id : Int
  west_next_id : Int
  green_dir : Int
  lane_dir : Int
  stop : Int
  construction_slots : Nat
  threads : List Thread
  generator_pc : LoopPC
  controller_pc : LoopPC
  dispatcher_pc : LoopPC
deriving DecidableEq

/-! ## enqueue_car (lines 66-82) -/

/-- Critical section of `enqueue_car(dir, is_ambulance)`. -/
def enqueue_car (s : State) (dir : Int) (is_ambulance : Int) : State :=
  let id := if dir = EAST then s.east_next_id else s.west_next_id
  let s1 : State :=
    if dir = EAST then { s with east_next_id := s.east_next_id + 1 }
    else { s with west_next_id := s.west_next_id + 1 }
  let new_car : Car :=
    { id := id, direction := dir, active := 1, progress := 0, is_ambulance := is_ambulance }
  if dir = EAST ∧ s1.east_count < MAX_CARS then
    { s1 with east_queue := s1.east_queue.set s1.east_count new_car,
              east_count := s1.east_count + 1 }
  else if dir = WEST ∧ s1.west_count < MAX_CARS then
    { s1 with west_queue := s1.west_queue.set s1.west_count new_car,
              west_count := s1.west_count + 1 }
  else s1

/-! ## controller (lines 196-205) -/

/-- Critical section of one iteration of `controller`: toggle the light. -/
def controller (s : State) : State :=
  { s with green_dir := if s.green_dir = EAST then WEST else EAST }

/-! ## dispatcher (lines 283-321) -/

/-- Lines 293-298: `for (k = 0; k < *count; ++k) if (queue[k].is_ambulance) ...`,
started at `k` with `n` iterations left; the result is `ambulance_index`. -/
def scanAmbulance (queue : List Car) (k : Nat) : Nat → Int
  | 0 => -1
  | n + 1 =>
    if (queue.getD k Car.zero).is_ambulance ≠ 0 then (k : Int)
    else scanAmbulance queue (k + 1) n

/-- Lines 304-305: `for (j = index + 1; j < *count; ++j) queue[j - 1] = queue[j];`
started at `j` with `n` iterations left. -/
def shiftQueue (queue : List Car) (j : Nat) : Nat → List Car
  | 0 => queue
  | n + 1 => shiftQueue (queue.set (j - 1) (queue.getD j Car.zero)) (j + 1) n

/-- Lines 291-313: the body run at the first inactive slot: pick the first
ambulance or the head, shift the queue, decrement the count and spawn the thread. -/
def dispatchBody (s : State) : State :=
  let queue := if s.green_dir = EAST then s.east_queue else s.west_queue
  let count := if s.green_dir = EAST then s.east_count else s.west_count
  let ambulance_index := scanAmbulance queue 0 count
  let index := if ambulance_index ≠ -1 then ambulance_index.toNat else 0
  let car := queue.getD index Car.zero
  let queue1 := shiftQueue queue (index + 1) (count - (index + 1))
  let count1 := count - 1
  let th : Thread := { car := car, pc := PC.eligibility, t := 0 }
  if s.green_dir = EAST then
    { s with east_queue := queue1, east_count := count1, threads := s.threads ++ [th] }
  else
    { s with west_queue := queue1, west_count := count1, threads := s.threads ++ [th] }

/-- Lines 289-315: `for (i = 0; i < LANE_CAPACITY; ++i) if (!construction[i].active)
{ ...; break; }`, started at `i` with `n` iterations left. -/
def dispatchLoop (s : State) (i : Nat) : Nat → State
  | 0 => s
  | n + 1 =>
    if (s.construction.getD i Car.zero).active = 0 then dispatchBody s
    else dispatchLoop s (i + 1) n

/-- Critical section of one iteration of `dispatcher` (lines 285-317). -/
def dispatcher (s : State) : State :=
  let count := if s.green_dir = EAST then s.east_count else s.west_count
  if count > 0 ∧ (s.lane_dir = -1 ∨ s.lane_dir = s.green_dir) then
    dispatchLoop s 0 LANE_CAPACITY
  else s

/-! ## car_thread (lines 208-269) -/

/-- Line 212: the value of `allowed`. -/
def allowed (s : State) (car : Car) : Bool :=
  decide (car.direction = s.green_dir ∧ (s.lane_dir = -1 ∨ s.lane_dir = car.direction))

/-- Lines 222-234: the placement loop, started at `i` with `n` iterations left. -/
def placeLoop (s : State) (car : Car) (i : Nat) : Nat → State
  | 0 => s
  | n + 1 =>
    if (s.construction.getD i Car.zero).active = 0 then
      { s with
        construction := s.construction.set i { car with active := 1, progress := 0 },
        lane_dir := if s.lane_dir = -1 then car.direction else s.lane_dir }
    else placeLoop s car (i + 1) n

/-- Lines 239-242: the inner loop of a progress update, started at `j` with `n`
iterations left. -/
def progressLoop (cs : List Car) (car : Car) (t : Int) (j : Nat) : Nat → List Car
  | 0 => cs
  | n + 1 =>
    let c := cs.getD j Car.zero
    progressLoop
      (if c.active ≠ 0 ∧ c.id = car.id ∧ c.direction = car.direction then
        cs.set j { c with progress := t + 1 }
      else cs)
      car t (j + 1) n

/-- Lines 248-258: the removal loop, started at `i` with `n` iterations left. -/
def releaseLoop (cs : List Car) (car : Car) (i : Nat) : Nat → List Car
  | 0 => cs
  | n + 1 =>
    let c := cs.getD i Car.zero
    if c.active ≠ 0 ∧ c.id = car.id ∧ c.direction = car.direction then
      cs.set i { c with active := 0, progress := 0 }
    else releaseLoop cs car (i + 1) n

/-- Lines 259-261: the `still_active` loop, started at `i` with `n` iterations left
and the current value `acc` of `still_active`. -/
def stillActive (cs : List Car) (acc : Int) (i : Nat) : Nat → Int
  | 0 => acc
  | n + 1 =>
    stillActive cs (if (cs.getD i Car.zero).active ≠ 0 then 1 else acc) (i + 1) n

/-- Lines 247-264: the release section on the shared data. -/
def releaseSection (s : State) (car : Car) : State :=
  let cs := releaseLoop s.construction car 0 LANE_CAPACITY
  let still_active := stillActive cs 0 0 LANE_CAPACITY
  { s with construction := cs, lane_dir := if still_active = 0 then -1 else s.lane_dir }

/-- One step of the thread at index `i` whose record is `th`; `none` when the thread
is blocked in `sem_wait` or has returned. -/
def car_thread (s : State) (i : Nat) (th : Thread) : Option State :=
  match th.pc with
  | PC.eligibility =>
    if s.stop ≠ 0 then
      some { s with threads := s.threads.set i { th with pc := PC.sem_wait } }
    else if allowed s th.car then
      some { s with threads := s.threads.set i { th with pc := PC.sem_wait } }
    else some s
  | PC.sem_wait =>
    if 0 < s.construction_slots then
      some { s with construction_slots := s.construction_slots - 1,
                    threads := s.threads.set i { th with pc := PC.placement } }
    else none
  | PC.placement =>
    let s1 := placeLoop s th.car 0 LANE_CAPACITY
    some { s1 with threads := s1.threads.set i { th with pc := PC.crossing, t := 0 } }
  | PC.crossing =>
    if th.t < CROSSING_TIME ∧ s.stop = 0 then
      some { s with
        construction := progressLoop s.construction th.car th.t 0 LANE_CAPACITY,
        threads := s.threads.set i { th with t := th.t + 1 } }
    else some { s with threads := s.threads.set i { th with pc := PC.release } }
  | PC.release =>
    let s1 := releaseSection s th.car
    some { s1 with threads := s1.threads.set i { th with pc := PC.sem_post } }
  | PC.sem_post =>
    some { s with construction_slots := s.construction_slots + 1,
                  threads := s.threads.set i { th with pc := PC.exited } }
  | PC.exited => none

/-! ## main (lines 333-396) and the interleaving of the threads -/

/-- The globals as their initialisers leave them (lines 27-39). -/
def globals : State :=
  { east_queue := List.replicate MAX_CARS Car.zero
    west_queue := List.replicate MAX_CARS Car.zero
    construction := List.replicate LANE_CAPACITY Car.zero
    east_count := 0
    west_count := 0
    east_next_id := 1
    west_next_id := 1
    green_dir := EAST
    lane_dir := -1
    stop := 0
    construction_slots := 0
    threads := []
    generator_pc := LoopPC.test
    controller_pc := LoopPC.test
    dispatcher_pc := LoopPC.test }

/-- Body of the loop of lines 344-354. -/
def preloadEast (s : State) : State :=
  let car : Car :=
    { id := s.east_next_id, direction := EAST, active := 1, progress := 0, is_ambulance := 0 }
  { s with east_next_id := s.east_next_id + 1,
           east_queue := s.east_queue.set s.east_count car,
           east_count := s.east_count + 1 }

/-- Body of the loop of lines 356-366. -/
def preloadWest (s : State) : State :=
  let car : Car :=
    { id := s.west_next_id, direction := WEST, active := 1, progress := 0, is_ambulance := 0 }
  { s with west_next_id := s.west_next_id + 1,
           west_queue := s.west_queue.set s.west_count car,
           west_count := s.west_count + 1 }

/-- The state in which `main` starts the threads: `sem_init` and the two preload
loops have run. -/
def init : State :=
  let s0 : State := { globals with construction_slots := LANE_CAPACITY }
  preloadWest (preloadWest (preloadWest (preloadEast (preloadEast (preloadEast s0)))))

/-- What can happen next: the loop test of a service thread, an arrival produced by
`generator`, a light switch, a dispatcher cycle, SIGINT, or a step of the car thread
at an index. -/
inductive Action where
  | test (w : Service)
  | enqueue (dir : Int) (is_ambulance : Int)
  | toggle
  | dispatch
  | sigint
  | car (i : Nat)
deriving DecidableEq

/-- The program point of a service thread. -/
def servicePC (s : State) : Service → LoopPC
  | Service.generator => s.generator_pc
  | Service.controller => s.controller_pc
  | Service.dispatcher => s.dispatcher_pc

/-- Move a service thread to a program point. -/
def setServicePC (s : State) (w : Service) (pc : LoopPC) : State :=
  match w with
  | Service.generator => { s with generator_pc := pc }
  | Service.controller => { s with controller_pc := pc }
  | Service.dispatcher => { s with dispatcher_pc := pc }

/-- One step of a thread of the running process.  A service thread at its test of
`stop` enters its loop body or returns (lines 197, 273, 284); in its body it runs its
critical section and is back at the test.  `generator` draws `dir` from EAST and WEST
and `is_ambulance` from 0 and 1 (lines 274-275).  SIGINT sets `stop` (lines 61-63). -/
def step (s : State) : Action → Option State
  | Action.test w =>
    match servicePC s w with
    | LoopPC.test =>
      some (setServicePC s w (if s.stop = 0 then LoopPC.body else LoopPC.returned))
    | _ => none
  | Action.enqueue dir is_ambulance =>
    if s.generator_pc = LoopPC.body ∧ (dir = EAST ∨ dir = WEST) ∧
        (is_ambulance = 0 ∨ is_ambulance = 1) then
      some (setServicePC (enqueue_car s dir is_ambulance) Service.generator LoopPC.test)
    else none
  | Action.toggle =>
    if s.controller_pc = LoopPC.body then
      some (setServicePC (controller s) Service.controller LoopPC.test)
    else none
  | Action.dispatch =>
    if s.dispatcher_pc = LoopPC.body then
      some (setServicePC (dispatcher s) Service.dispatcher LoopPC.test)
    else none
  | Action.sigint => some { s with stop := 1 }
  | Action.car i =>
    match s.threads[i]? with
    | none => none
    | some th => car_thread s i th

/-- Run a schedule from a state; `none` when some action of it is not enabled. -/
def run (s : State) : List Action → Option State
  | [] => some s
  | a :: as =>
    match step s a with
    | none => none
    | some s1 => run s1 as

/-- The states of the running process: those some schedule reaches from the start
state. -/
def Reachable (s : State) : Prop := ∃ acts, run init acts = some s

/-! ## The process: the return of main (lines 387-395) -/

/-- The process: the shared state and whether `main` has not returned yet. -/
structure Process where
  state : State
  running : Bool
deriving DecidableEq

/-- An event of the process: a step of one of its threads, or the return of `main`. -/
inductive Event where
  | act (a : Action)
  | main_return
deriving DecidableEq

/-- The modelled threads that `main` joins have returned (lines 387-391). -/
def joined (s : State) : Prop :=
  s.generator_pc = LoopPC.returned ∧ s.controller_pc = LoopPC.returned ∧
    s.dispatcher_pc = LoopPC.returned

instance (s : State) : Decidable (joined s) := by
  unfold joined; infer_instance

/-- One event of the process.  Threads step only while the process runs; `main`
returns once its joins have succeeded, which ends the process and every thread that
has not returned, the detached car threads included. -/
def procStep (p : Process) : Event → Option Process
  | Event.act a =>
    if p.running = true then
      match step p.state a with
      | none => none
      | some s1 => some { state := s1, running := true }
    else none
  | Event.main_return =>
    if p.running = true ∧ joined p.state then some { state := p.state, running := false }
    else none

/-- Run a list of events; `none` when one of them is not enabled. -/
def procRun (p : Process) : List Event → Option Process
  | [] => some p
  | e :: es =>
    match procStep p e with
    | none => none
    | some p1 => procRun p1 es

/-- The process as `main` has started its threads. -/
def procInit : Process := { state := init, running := true }

/-- The processes some list of events reaches from the start. -/
def ProcReachable (p : Process) : Prop := ∃ es, procRun procInit es = some p

/-! ## Views of the state used in the statements -/

/-- The live part of the EAST queue. -/
def eastView (s : State) : List Car := s.east_queue.take s.east_count

/-- The live part of the WEST queue. -/
def westView (s : State) : List Car := s.west_queue.take s.west_count

/-- The occupied slots of the zone. -/
def occupants (s : State) : List Car := s.construction.filter (fun c => c.active ≠ 0)

/-! ## Vocabulary of the statements -/

/-- The count of the queue of a direction. -/
def countOf (s : State) (dir : Int) : Nat :=
  if dir = EAST then s.east_count else s.west_count

/-- The backing array of the queue of a direction. -/
def queueOf (s : State) (dir : Int) : List Car :=
  if dir = EAST then s.east_queue else s.west_queue

/-- The id the next arrival of a direction gets. -/
def nextIdOf (s : State) (dir : Int) : Int :=
  if dir = EAST then s.east_next_id else s.west_next_id

/-- The live part of the queue of a direction, head first. -/
def viewOf (s : State) (dir : Int) : List Car := (queueOf s dir).take (countOf s dir)

/-- The selected vehicle `car` splits the live queue as `pre ++ car :: post`: it is
the first ambulance, or the head of a queue without ambulance. -/
def Selected (pre : List Car) (car : Car) (post : List Car) : Prop :=
  (car.is_ambulance ≠ 0 ∧ ∀ c ∈ pre, c.is_ambulance = 0) ∨
  (pre = [] ∧ car.is_ambulance = 0 ∧ ∀ c ∈ post, c.is_ambulance = 0)

/-- The test of lines 240 and 249: the slot is active and carries the id and
direction of the car. -/
def Matches (c car : Car) : Prop :=
  c.active ≠ 0 ∧ c.id = car.id ∧ c.direction = car.direction

instance (c car : Car) : Decidable (Matches c car) := by
  unfold Matches; infer_instance

/-- The vehicle of a thread is in a queue again. -/
def Queued (s : State) (th : Thread) : Prop :=
  ∃ c ∈ eastView s ++ westView s, c.id = th.car.id ∧ c.direction = th.car.direction

/-- The vehicle of a thread occupies an active slot. -/
def Occupies (s : State) (th : Thread) : Prop := ∃ c ∈ s.construction, Matches c th.car

/-- The release section of a thread has run. -/
def Released (th : Thread) : Prop := th.pc = PC.sem_post ∨ th.pc = PC.exited

/-- The thread holds its vehicle and has not placed it yet. -/
def Pending (th : Thread) : Prop :=
  th.pc = PC.eligibility ∨ th.pc = PC.sem_wait ∨ th.pc = PC.placement

/-- The WEST vehicles the dispatcher has taken from the queue so far. -/
def westDispatched (s : State) : List Car :=
  (s.threads.map Thread.car).filter fun c => c.direction = WEST

/-- Run a schedule as long as the zone is occupied: `none` when an action is not
enabled or is taken in a state whose zone is empty. -/
def runOccupied (s : State) : List Action → Option State
  | [] => some s
  | a :: as =>
    if occupants s = [] then none
    else
      match step s a with
      | none => none
      | some s1 => runOccupied s1 as

/-! ## Scenarios -/

/-- One iteration of the dispatcher loop: the test of `stop`, then the cycle. -/
def dispatchCycle : List Action := [Action.test Service.dispatcher, Action.dispatch]

/-- One iteration of the controller loop: the test of `stop`, then the switch. -/
def lightSwitch : List Action := [Action.test Service.controller, Action.toggle]

/-- A schedule on which an EAST and a WEST car pass the eligibility test before
either is placed. -/
def raceSchedule : List Action :=
  dispatchCycle ++ [Action.car 0] ++ lightSwitch ++ dispatchCycle ++
    [Action.car 1, Action.car 0, Action.car 0, Action.car 1, Action.car 1]

/-- A schedule on which the light switches right after a dispatch. -/
def waitSchedule : List Action := dispatchCycle ++ lightSwitch ++ [Action.car 0]

/-- A schedule that brings the first car to progress 1 of 3 and then delivers SIGINT. -/
def midCrossingSchedule : List Action :=
  dispatchCycle ++ [Action.car 0, Action.car 0, Action.car 0, Action.car 0, Action.sigint]

/-- A schedule on which SIGINT arrives when the first car is at progress 1 of 3. -/
def stopSchedule : List Action := midCrossingSchedule ++ [Action.car 0]

/-- A schedule that fills the zone with two EAST cars and then switches the light. -/
def lockSchedule : List Action :=
  dispatchCycle ++ [Action.car 0, Action.car 0, Action.car 0] ++
    dispatchCycle ++ [Action.car 1, Action.car 1, Action.car 1] ++ lightSwitch

/-- A schedule run from `lockedState`, during which the zone stays occupied: three
dispatcher cycles, two light switches and one progress update of each car. -/
def lockedContinuation : List Action :=
  dispatchCycle ++ [Action.car 0] ++ lightSwitch ++ dispatchCycle ++ [Action.car 1] ++
    lightSwitch ++ dispatchCycle

/-- A schedule that brings the first car to its placement step. -/
def placementSchedule : List Action := dispatchCycle ++ [Action.car 0, Action.car 0]

/-- A schedule that brings the first car to its release step after a full crossing. -/
def releaseSchedule : List Action :=
  dispatchCycle ++ [Action.car 0, Action.car 0, Action.car 0, Action.car 0, Action.car 0,
    Action.car 0, Action.car 0]

/-- Events of the process: the services run, the first car reaches progress 1 of 3,
SIGINT arrives, the controller (past its test) switches the light once more, the three
service threads find `stop` set and return, and `main` returns. -/
def exitSchedule : List Event :=
  ([Action.test Service.generator, Action.enqueue EAST 0, Action.test Service.controller] ++
    dispatchCycle ++ [Action.car 0, Action.car 0, Action.car 0, Action.car 0,
      Action.sigint, Action.toggle, Action.test Service.controller,
      Action.test Service.generator, Action.test Service.dispatcher]).map Event.act ++
    [Event.main_return]

/-- The state with the zone locked to EAST, 2 of 2 slots active, and the light on WEST. -/
def lockedState : State := (run init lockSchedule).getD init

/-- The state of the example: EAST queue E1 normal, E2 ambulance, E3 normal. -/
def ambulanceState : State :=
  { init with
    east_queue := init.east_queue.set 1
      { id := 2, direction := EAST, active := 1, progress := 0, is_ambulance := 1 } }

/-- The state after `midCrossingSchedule`: the first car is at progress 1 of 3 and
`stop` is set. -/
def midCrossingState : State := (run init midCrossingSchedule).getD init

/-- The state in which the first car holds a token and is about to be placed. -/
def placementState : State := (run init placementSchedule).getD init

/-- The state in which the first car has crossed and is about to be released. -/
def releaseState : State := (run init releaseSchedule).getD init

/-- The state in which the dispatcher is past its test of `stop`. -/
def dispatchingState : State := (run init [Action.test Service.dispatcher]).getD init

/-- The car E1 that `main` preloads at the head of the EAST queue. -/
def firstEast : Car :=
  { id := 1, direction := EAST, active := 1, progress := 0, is_ambulance := 0 }

/-- The first spawned thread of a state. -/
def firstThread (s : State) : Thread := s.threads.getD 0 ⟨Car.zero, PC.exited, 0⟩

/-- The state after one step of the first spawned thread. -/
def afterFirst (s : State) : State := (step s (Action.car 0)).getD s

/-- The state after the dispatcher has run its critical section. -/
def afterDispatch (s : State) : State := (step s Action.dispatch).getD s

instance (s : State) (th : Thread) : Decidable (Queued s th) := by
  unfold Queued; infer_instance

instance (s : State) (th : Thread) : Decidable (Occupies s th) := by
  unfold Occupies; infer_instance

instance (th : Thread) : Decidable (Released th) := by
  unfold Released; infer_instance

instance (th : Thread) : Decidable (Pending th) := by
  unfold Pending; infer_instance

/-! ## Bookkeeping of lifecycles, used in the statements -/

/-- The thread occupies a slot: it has run its placement and not yet its release. -/
def PC.placed : PC → Bool
  | PC.crossing => true
  | PC.release => true
  | _ => false

/-- The thread holds a semaphore token: it is between its `sem_wait` and its
`sem_post`. -/
def PC.holder : PC → Bool
  | PC.placement => true
  | PC.crossing => true
  | PC.release => true
  | PC.sem_post => true
  | _ => false

/-- Number of threads of a list that hold a semaphore token. -/
def holdersOf (l : List Thread) : Nat := l.countP fun th => th.pc.holder

/-- Number of threads that hold a semaphore token. -/
def holders (s : State) : Nat := holdersOf s.threads

/-- Identity of a vehicle: id and direction, the fields the source matches on. -/
def Car.key (c : Car) : Int × Int := (c.id, c.direction)

/-- Id, direction and progress of the occupied slots. -/
def slotEntries (s : State) : List (Int × Int × Int) :=
  (occupants s).map fun c => (c.id, c.direction, c.progress)

/-- Id, direction and loop variable `t` of the threads of a list that occupy a slot. -/
def entriesOf (l : List Thread) : List (Int × Int × Int) :=
  (l.filter fun th => th.pc.placed).map fun th => (th.car.id, th.car.direction, th.t)

/-- Id, direction and loop variable `t` of the threads that occupy a slot. -/
def threadEntries (s : State) : List (Int × Int × Int) := entriesOf s.threads

/-- Keys of all vehicles in the system: queued, or held by a thread. -/
def allKeys (s : State) : List (Int × Int) :=
  (eastView s ++ westView s ++ s.threads.map Thread.car).map Car.key

/-- The inductive invariant of the interleaved program. -/
structure Inv (s : State) : Prop where
  east_len : s.east_queue.length = MAX_CARS
  west_len : s.west_queue.length = MAX_CARS
  zone_len : s.construction.length = LANE_CAPACITY
  east_le : s.east_count ≤ MAX_CARS
  west_le : s.west_count ≤ MAX_CARS
  east_cars : ∀ c ∈ eastView s, c.direction = EAST ∧ c.id < s.east_next_id
  west_cars : ∀ c ∈ westView s, c.direction = WEST ∧ c.id < s.west_next_id
  thread_cars : ∀ th ∈ s.threads,
    (th.car.direction = EAST ∧ th.car.id < s.east_next_id) ∨
    (th.car.direction = WEST ∧ th.car.id < s.west_next_id)
  keys_nodup : (allKeys s).Nodup
  zone_perm : (slotEntries s).Perm (threadEntries s)
  tokens : s.construction_slots + holders s = LANE_CAPACITY
  lock : s.lane_dir = -1 ↔ occupants s = []
  timer : ∀ th ∈ s.threads, th.pc.placed = true →
    0 ≤ th.t ∧ th.t ≤ CROSSING_TIME ∧
      (th.pc = PC.release → th.t = CROSSING_TIME ∨ s.stop ≠ 0)

/-- The thread-local effect of one step of `car_thread`: the new program point and
loop variable; `none` when the thread cannot step. -/
def nextThread (s : State) (th : Thread) : Option Thread :=
  match th.pc with
  | PC.eligibility =>
    if s.stop ≠ 0 then some { th with pc := PC.sem_wait }
    else if allowed s th.car then some { th with pc := PC.sem_wait }
    else some th
  | PC.sem_wait =>
    if 0 < s.construction_slots then some { th with pc := PC.placement } else none
  | PC.placement => some { th with pc := PC.crossing, t := 0 }
  | PC.crossing =>
    if th.t < CROSSING_TIME ∧ s.stop = 0 then some { th with t := th.t + 1 }
    else some { th with pc := PC.release }
  | PC.release => some { th with pc := PC.sem_post }
  | PC.sem_post => some { th with pc := PC.exited }
  | PC.exited => none

/-- An upper bound on the number of steps a thread that occupies a slot still takes
before it has returned. -/
def remaining (th : Thread) : Nat :=
  match th.pc with
  | PC.crossing => (CROSSING_TIME - th.t).toNat + 3
  | PC.release => 2
  | PC.sem_post => 1
  | PC.exited => 0
  | _ => 0

/-! # Proofs -/

/-! ## Arrays as lists -/

theorem getD_eq_of_getElem? {l : List Car} {i : Nat} {c : Car} (h : l[i]? = some c) :
    l.getD i Car.zero = c := by
  simp [List.getD_eq_getElem?_getD, h]

theorem set_split {α : Type} (l : List α) (i : Nat) (x : α) (h : l[i]? = some x) :
    ∃ l1 l2, l = l1 ++ x :: l2 ∧ l1.length = i ∧ ∀ y, l.set i y = l1 ++ y :: l2 := by
  induction l generalizing i with
  | nil => simp at h
  | cons a l ih =>
    cases i with
    | zero =>
      simp at h
      exact ⟨[], l, by simp [h], rfl, fun y => by simp⟩
    | succ i =>
      simp at h
      obtain ⟨l1, l2, h1, h2, h3⟩ := ih i h
      refine ⟨a :: l1, l2, by simp [h1], by simp [h2], fun y => ?_⟩
      simp [h3 y]

/-! ## The selection and removal loops of the dispatcher -/

theorem scanAmbulance_spec (queue : List Car) (n k : Nat) :
    (scanAmbulance queue k n = -1 ∧
        ∀ j, k ≤ j → j < k + n → (queue.getD j Car.zero).is_ambulance = 0) ∨
    (∃ m : Nat, scanAmbulance queue k n = (m : Int) ∧ k ≤ m ∧ m < k + n ∧
        (queue.getD m Car.zero).is_ambulance ≠ 0 ∧
        ∀ j, k ≤ j → j < m → (queue.getD j Car.zero).is_ambulance = 0) := by
  induction n generalizing k with
  | zero => left; exact ⟨rfl, fun j h1 h2 => by omega⟩
  | succ n ih =>
    unfold scanAmbulance
    by_cases hk : (queue.getD k Car.zero).is_ambulance ≠ 0
    · right
      rw [if_pos hk]
      exact ⟨k, rfl, le_refl _, by omega, hk, fun j h1 h2 => by omega⟩
    · rw [if_neg hk]
      have hk0 : (queue.getD k Car.zero).is_ambulance = 0 := by
        by_contra h; exact hk h
      rcases ih (k + 1) with ⟨h1, h2⟩ | ⟨m, h1, h2, h3, h4, h5⟩
      · left
        refine ⟨h1, fun j hj1 hj2 => ?_⟩
        by_cases hjk : j = k
        · subst hjk; exact hk0
        · exact h2 j (by omega) (by omega)
      · right
        refine ⟨m, h1, by omega, by omega, h4, fun j hj1 hj2 => ?_⟩
        by_cases hjk : j = k
        · subst hjk; exact hk0
        · exact h5 j (by omega) hj2

theorem shiftQueue_length (queue : List Car) (j n : Nat) :
    (shiftQueue queue j n).length = queue.length := by
  induction n generalizing queue j with
  | zero => rfl
  | succ n ih => simp [shiftQueue, ih]

theorem shiftQueue_getElem? (queue : List Car) (j n m : Nat) (hj : 1 ≤ j)
    (hlen : j + n ≤ queue.length) :
    (shiftQueue queue j n)[m]? =
      if j - 1 ≤ m ∧ m < j - 1 + n then queue[m + 1]? else queue[m]? := by
  induction n generalizing queue j with
  | zero =>
    have h : ¬ (j - 1 ≤ m ∧ m < j - 1 + 0) := by omega
    rw [if_neg h]; rfl
  | succ n ih =>
    unfold shiftQueue
    rw [ih _ (j + 1) (by omega) (by rw [List.length_set]; omega)]
    have hjl : j < queue.length := by omega
    obtain ⟨c, hc⟩ : ∃ c, queue[j]? = some c := ⟨_, List.getElem?_eq_getElem hjl⟩
    rw [getD_eq_of_getElem? hc, List.getElem?_set, List.getElem?_set]
    by_cases h1 : j + 1 - 1 ≤ m ∧ m < j + 1 - 1 + n
    · have h2 : j - 1 ≤ m ∧ m < j - 1 + (n + 1) := by omega
      have h3 : ¬ (j - 1 = m + 1) := by omega
      rw [if_pos h1, if_pos h2, if_neg h3]
    · rw [if_neg h1]
      by_cases h4 : j - 1 = m
      · have h2 : j - 1 ≤ m ∧ m < j - 1 + (n + 1) := by omega
        have h5 : j - 1 < queue.length := by omega
        have h6 : m + 1 = j := by omega
        rw [if_pos h4, if_pos h5, if_pos h2, h6, hc]
      · have h2 : ¬ (j - 1 ≤ m ∧ m < j - 1 + (n + 1)) := by omega
        rw [if_neg h4, if_neg h2]

/-- Removing cell `index` of the live part by the shift loop: the live part of the
result is the old live part without that cell. -/
theorem take_shiftQueue (queue : List Car) (count index : Nat) (hi : index < count)
    (hc : count ≤ queue.length) :
    (shiftQueue queue (index + 1) (count - (index + 1))).take (count - 1) =
      (queue.take count).take index ++ (queue.take count).drop (index + 1) := by
  apply List.ext_getElem?
  intro m
  rw [List.getElem?_take, shiftQueue_getElem? _ _ _ _ (by omega) (by omega)]
  rw [List.getElem?_append, List.getElem?_take, List.getElem?_take, List.getElem?_drop,
    List.getElem?_take, List.length_take, List.length_take]
  have h6 : min index (min count queue.length) = index := by omega
  rw [h6]
  by_cases h1 : m < count - 1
  · rw [if_pos h1]
    by_cases h2 : m < index
    · have h3 : ¬ (index + 1 - 1 ≤ m ∧ m < index + 1 - 1 + (count - (index + 1))) := by omega
      have h5 : m < count := by omega
      rw [if_neg h3, if_pos h2, if_pos h2, if_pos h5]
    · have h3 : index + 1 - 1 ≤ m ∧ m < index + 1 - 1 + (count - (index + 1)) := by omega
      have h5 : index + 1 + (m - index) = m + 1 := by omega
      have h7 : m + 1 < count := by omega
      rw [if_pos h3, if_neg h2, h5, if_pos h7]
  · have h2 : ¬ (m < index) := by omega
    have h5 : ¬ (index + 1 + (m - index) < count) := by omega
    rw [if_neg h1, if_neg h2, if_neg h5]

theorem take_split_at (queue : List Car) (count index : Nat) (hi : index < count)
    (hc : count ≤ queue.length) :
    queue.take count =
      (queue.take count).take index ++
        queue.getD index Car.zero :: (queue.take count).drop (index + 1) := by
  have hlen : index < (queue.take count).length := by simp; omega
  have h1 : (queue.take count)[index] = queue.getD index Car.zero := by
    rw [List.getD_eq_getElem _ _ (by omega : index < queue.length)]
    simp
  rw [← h1, List.getElem_cons_drop _ _ hlen, List.take_append_drop]

theorem mem_take_getD {queue : List Car} {n : Nat} {c : Car} (h : c ∈ queue.take n) :
    ∃ j, j < n ∧ queue.getD j Car.zero = c := by
  obtain ⟨j, hj⟩ := List.mem_iff_getElem?.1 h
  rw [List.getElem?_take] at hj
  by_cases hjn : j < n
  · rw [if_pos hjn] at hj
    exact ⟨j, hjn, getD_eq_of_getElem? hj⟩
  · rw [if_neg hjn] at hj; cases hj

theorem select_spec (queue : List Car) (count : Nat) (hpos : 0 < count)
    (hle : count ≤ queue.length) (index : Nat)
    (hidx : index = if scanAmbulance queue 0 count ≠ -1
      then (scanAmbulance queue 0 count).toNat else 0) :
    ∃ pre post, queue.take count = pre ++ queue.getD index Car.zero :: post ∧
      (shiftQueue queue (index + 1) (count - (index + 1))).take (count - 1) = pre ++ post ∧
      Selected pre (queue.getD index Car.zero) post := by
  rcases scanAmbulance_spec queue count 0 with ⟨h1, h2⟩ | ⟨m, h1, h2, h3, h4, h5⟩
  · have hi0 : index = 0 := by rw [hidx, h1]; simp
    subst hi0
    refine ⟨(queue.take count).take 0, (queue.take count).drop (0 + 1),
      take_split_at queue count 0 hpos hle, take_shiftQueue queue count 0 hpos hle, ?_⟩
    right
    refine ⟨by simp, h2 0 (le_refl _) (by omega), fun c hc => ?_⟩
    obtain ⟨j, hj, hjc⟩ := mem_take_getD (List.mem_of_mem_drop hc)
    rw [← hjc]; exact h2 j (Nat.zero_le _) (by omega)
  · have him : index = m := by
      rw [hidx, h1]
      have : ((m : Int) ≠ -1) := by omega
      rw [if_pos this]; simp
    subst him
    have hic : index < count := by omega
    refine ⟨(queue.take count).take index, (queue.take count).drop (index + 1),
      take_split_at queue count index hic hle, take_shiftQueue queue count index hic hle, ?_⟩
    left
    refine ⟨h4, fun c hc => ?_⟩
    rw [List.take_take] at hc
    obtain ⟨j, hj, hjc⟩ := mem_take_getD hc
    rw [← hjc]; exact h5 j (Nat.zero_le _) (by omega)

theorem dispatchBody_east (s : State) (hg : s.green_dir = EAST) (hpos : 0 < s.east_count)
    (hle : s.east_count ≤ s.east_queue.length) :
    ∃ pre car post q1, eastView s = pre ++ car :: post ∧
      q1.take (s.east_count - 1) = pre ++ post ∧ q1.length = s.east_queue.length ∧
      dispatchBody s =
        { s with east_queue := q1, east_count := s.east_count - 1,
                 threads := s.threads ++ [{ car := car, pc := PC.eligibility, t := 0 }] } ∧
      Selected pre car post := by
  obtain ⟨pre, post, h1, h2, h3⟩ := select_spec s.east_queue s.east_count hpos hle _ rfl
  refine ⟨pre, _, post, _, h1, h2, shiftQueue_length _ _ _, ?_, h3⟩
  simp only [dispatchBody, hg, if_true]

theorem dispatchBody_west (s : State) (hg : s.green_dir ≠ EAST) (hpos : 0 < s.west_count)
    (hle : s.west_count ≤ s.west_queue.length) :
    ∃ pre car post q1, westView s = pre ++ car :: post ∧
      q1.take (s.west_count - 1) = pre ++ post ∧ q1.length = s.west_queue.length ∧
      dispatchBody s =
        { s with west_queue := q1, west_count := s.west_count - 1,
                 threads := s.threads ++ [{ car := car, pc := PC.eligibility, t := 0 }] } ∧
      Selected pre car post := by
  obtain ⟨pre, post, h1, h2, h3⟩ := select_spec s.west_queue s.west_count hpos hle _ rfl
  refine ⟨pre, _, post, _, h1, h2, shiftQueue_length _ _ _, ?_, h3⟩
  simp only [dispatchBody, hg, if_false]

/-- The dispatcher cycle either leaves the state alone or runs its body once. -/
theorem dispatcher_cases (s : State) :
    dispatcher s = s ∨
    (dispatcher s = dispatchBody s ∧
      0 < (if s.green_dir = EAST then s.east_count else s.west_count) ∧
      (s.lane_dir = -1 ∨ s.lane_dir = s.green_dir) ∧
      ∃ i, i < LANE_CAPACITY ∧ (s.construction.getD i Car.zero).active = 0) := by
  unfold dispatcher
  by_cases h : (if s.green_dir = EAST then s.east_count else s.west_count) > 0 ∧
      (s.lane_dir = -1 ∨ s.lane_dir = s.green_dir)
  · rw [if_pos h]
    simp only [LANE_CAPACITY, dispatchLoop]
    by_cases h0 : (s.construction.getD 0 Car.zero).active = 0
    · right
      rw [if_pos h0]
      exact ⟨rfl, h.1, h.2, 0, by decide, h0⟩
    · rw [if_neg h0]
      by_cases h1 : (s.construction.getD (0 + 1) Car.zero).active = 0
      · right
        rw [if_pos h1]
        exact ⟨rfl, h.1, h.2, 1, by decide, h1⟩
      · left
        rw [if_neg h1]
  · left
    rw [if_neg h]

/-- When the guard holds and a slot is free the cycle runs its body. -/
theorem dispatcher_runs (s : State)
    (hpos : 0 < (if s.green_dir = EAST then s.east_count else s.west_count))
    (hlane : s.lane_dir = -1 ∨ s.lane_dir = s.green_dir)
    (i : Nat) (hi : i < LANE_CAPACITY) (hfree : (s.construction.getD i Car.zero).active = 0) :
    dispatcher s = dispatchBody s := by
  unfold dispatcher
  have h : (if s.green_dir = EAST then s.east_count else s.west_count) > 0 ∧
      (s.lane_dir = -1 ∨ s.lane_dir = s.green_dir) := ⟨hpos, hlane⟩
  rw [if_pos h]
  simp only [LANE_CAPACITY, dispatchLoop]
  by_cases h0 : (s.construction.getD 0 Car.zero).active = 0
  · rw [if_pos h0]
  · rw [if_neg h0]
    have hi1 : i = 1 := by
      simp only [LANE_CAPACITY] at hi
      rcases Nat.lt_or_ge i 1 with h | h
      · have : i = 0 := by omega
        subst this; exact absurd hfree h0
      · omega
    subst hi1
    rw [if_pos hfree]

/-! ## The invariant holds at the start and is kept by every step -/

theorem inv_init : Inv init := by
  refine ⟨by decide, by decide, by decide, by decide, by decide, by decide, by decide,
    by decide, by decide, ?_, by decide, by decide, by decide⟩
  have h1 : slotEntries init = [] := by decide
  have h2 : threadEntries init = [] := by decide
  rw [h1, h2]

theorem inv_sigint (s : State) (h : Inv s) : Inv { s with stop := 1 } := by
  refine ⟨h.east_len, h.west_len, h.zone_len, h.east_le, h.west_le, h.east_cars,
    h.west_cars, h.thread_cars, h.keys_nodup, h.zone_perm, h.tokens, h.lock, ?_⟩
  intro th hth hp
  obtain ⟨h1, h2, _⟩ := h.timer th hth hp
  exact ⟨h1, h2, fun _ => Or.inr (by simp)⟩

theorem inv_controller (s : State) (h : Inv s) : Inv (controller s) :=
  ⟨h.east_len, h.west_len, h.zone_len, h.east_le, h.west_le, h.east_cars,
    h.west_cars, h.thread_cars, h.keys_nodup, h.zone_perm, h.tokens, h.lock, h.timer⟩

/-! ### enqueue_car -/

theorem take_set_succ (l : List Car) (n : Nat) (x : Car) (h : n < l.length) :
    (l.set n x).take (n + 1) = l.take n ++ [x] := by
  apply List.ext_getElem?
  intro m
  rw [List.getElem?_take, List.getElem?_set, List.getElem?_append, List.getElem?_take,
    List.length_take]
  have h0 : min n l.length = n := by omega
  rw [h0]
  by_cases h1 : m < n
  · have h2 : m < n + 1 := by omega
    have h3 : ¬ (n = m) := by omega
    rw [if_pos h2, if_neg h3, if_pos h1, if_pos h1]
  · by_cases h4 : n = m
    · subst h4
      rw [if_pos (by omega), if_pos rfl, if_pos h, if_neg h1]
      simp
    · have h2 : ¬ (m < n + 1) := by omega
      rw [if_neg h2, if_neg h1]
      have : m - n = (m - n - 1) + 1 := by omega
      rw [this]; rfl

theorem take_set_same (l : List Car) (n : Nat) (x : Car) :
    (l.set n x).take n = l.take n := by
  apply List.ext_getElem?
  intro m
  rw [List.getElem?_take, List.getElem?_set, List.getElem?_take]
  by_cases h1 : m < n
  · have h3 : ¬ (n = m) := by omega
    rw [if_pos h1, if_neg h3, if_pos h1]
  · rw [if_neg h1, if_neg h1]

theorem enqueue_car_east_room (s : State) (amb : Int) (h : s.east_count < MAX_CARS) :
    enqueue_car s EAST amb =
      { s with east_next_id := s.east_next_id + 1,
               east_queue := s.east_queue.set s.east_count
                 { id := s.east_next_id, direction := EAST, active := 1, progress := 0,
                   is_ambulance := amb },
               east_count := s.east_count + 1 } := by
  simp [enqueue_car, h]

theorem enqueue_car_east_full (s : State) (amb : Int) (h : ¬ s.east_count < MAX_CARS) :
    enqueue_car s EAST amb = { s with east_next_id := s.east_next_id + 1 } := by
  have hne : ¬ (EAST = WEST) := by decide
  simp [enqueue_car, h, hne]

theorem enqueue_car_west_room (s : State) (amb : Int) (h : s.west_count < MAX_CARS) :
    enqueue_car s WEST amb =
      { s with west_next_id := s.west_next_id + 1,
               west_queue := s.west_queue.set s.west_count
                 { id := s.west_next_id, direction := WEST, active := 1, progress := 0,
                   is_ambulance := amb },
               west_count := s.west_count + 1 } := by
  have hne : ¬ (WEST = EAST) := by decide
  simp [enqueue_car, h, hne]

theorem enqueue_car_west_full (s : State) (amb : Int) (h : ¬ s.west_count < MAX_CARS) :
    enqueue_car s WEST amb = { s with west_next_id := s.west_next_id + 1 } := by
  have hne : ¬ (WEST = EAST) := by decide
  simp [enqueue_car, h, hne]

theorem key_bound_of_inv (s : State) (h : Inv s) :
    ∀ k ∈ allKeys s, (k.2 = EAST ∧ k.1 < s.east_next_id) ∨ (k.2 = WEST ∧ k.1 < s.west_next_id) := by
  intro k hk
  simp only [allKeys, List.mem_map, List.mem_append] at hk
  obtain ⟨c, hc, rfl⟩ := hk
  rcases hc with (hc | hc) | ⟨th, hth, rfl⟩
  · exact Or.inl (h.east_cars c hc)
  · exact Or.inr (h.west_cars c hc)
  · exact h.thread_cars th hth

theorem inv_push_east (s s1 : State) (h : Inv s) (c : Car)
    (hq : s1.east_queue.length = MAX_CARS) (hn : s1.east_count ≤ MAX_CARS)
    (hv : eastView s1 = eastView s ++ [c]) (hd : c.direction = EAST)
    (hid : c.id = s.east_next_id) (hnext : s1.east_next_id = s.east_next_id + 1)
    (hwq : s1.west_queue = s.west_queue) (hwc : s1.west_count = s.west_count)
    (hwn : s1.west_next_id = s.west_next_id) (hz : s1.construction = s.construction)
    (ht : s1.threads = s.threads) (hl : s1.lane_dir = s.lane_dir) (hs : s1.stop = s.stop)
    (hsem : s1.construction_slots = s.construction_slots) : Inv s1 := by
  have hne : ¬ (EAST = WEST) := by decide
  have hkb := key_bound_of_inv s h
  have hwv : westView s1 = westView s := by simp only [westView, hwq, hwc]
  refine ⟨hq, by rw [hwq]; exact h.west_len, by rw [hz]; exact h.zone_len, hn,
    by rw [hwc]; exact h.west_le, ?_, ?_, ?_, ?_, ?_, ?_, ?_, ?_⟩
  · intro c1 hcm
    rw [hv] at hcm
    rw [hnext]
    rcases List.mem_append.1 hcm with hcm | hcm
    · have := h.east_cars c1 hcm
      exact ⟨this.1, by omega⟩
    · simp at hcm; subst hcm
      exact ⟨hd, by omega⟩
  · rw [hwv, hwn]; exact h.west_cars
  · intro th hth
    rw [ht] at hth
    rw [hnext, hwn]
    rcases h.thread_cars th hth with h1 | h1
    · exact Or.inl ⟨h1.1, by omega⟩
    · exact Or.inr h1
  · have hk : allKeys s1 = (eastView s).map Car.key ++ (s.east_next_id, EAST) ::
          ((westView s ++ s.threads.map Thread.car).map Car.key) := by
      unfold allKeys
      rw [hv, hwv, ht]
      simp [Car.key, hd, hid]
    rw [hk]
    have hold : ((eastView s).map Car.key ++
        ((westView s ++ s.threads.map Thread.car).map Car.key)).Nodup := by
      have := h.keys_nodup
      simpa [allKeys] using this
    refine (List.perm_middle.nodup_iff).2 (List.nodup_cons.2 ⟨?_, hold⟩)
    intro hmem
    have hmem2 : (s.east_next_id, EAST) ∈ allKeys s := by
      simpa [allKeys] using hmem
    rcases hkb _ hmem2 with h1 | h1
    · exact absurd h1.2 (lt_irrefl _)
    · exact hne h1.1
  · simp only [slotEntries, threadEntries, occupants, hz, ht]; exact h.zone_perm
  · simp only [holders, ht, hsem]; exact h.tokens
  · simp only [occupants, hz, hl]; exact h.lock
  · rw [ht, hs]; exact h.timer

theorem inv_push_west (s s1 : State) (h : Inv s) (c : Car)
    (hq : s1.west_queue.length = MAX_CARS) (hn : s1.west_count ≤ MAX_CARS)
    (hv : westView s1 = westView s ++ [c]) (hd : c.direction = WEST)
    (hid : c.id = s.west_next_id) (hnext : s1.west_next_id = s.west_next_id + 1)
    (heq : s1.east_queue = s.east_queue) (hec : s1.east_count = s.east_count)
    (hen : s1.east_next_id = s.east_next_id) (hz : s1.construction = s.construction)
    (ht : s1.threads = s.threads) (hl : s1.lane_dir = s.lane_dir) (hs : s1.stop = s.stop)
    (hsem : s1.construction_slots = s.construction_slots) : Inv s1 := by
  have hne : ¬ (EAST = WEST) := by decide
  have hkb := key_bound_of_inv s h
  have hev : eastView s1 = eastView s := by simp only [eastView, heq, hec]
  refine ⟨by rw [heq]; exact h.east_len, hq, by rw [hz]; exact h.zone_len,
    by rw [hec]; exact h.east_le, hn, ?_, ?_, ?_, ?_, ?_, ?_, ?_, ?_⟩
  · rw [hev, hen]; exact h.east_cars
  · intro c1 hcm
    rw [hv] at hcm
    rw [hnext]
    rcases List.mem_append.1 hcm with hcm | hcm
    · have := h.west_cars c1 hcm
      exact ⟨this.1, by omega⟩
    · simp at hcm; subst hcm
      exact ⟨hd, by omega⟩
  · intro th hth
    rw [ht] at hth
    rw [hnext, hen]
    rcases h.thread_cars th hth with h1 | h1
    · exact Or.inl h1
    · exact Or.inr ⟨h1.1, by omega⟩
  · have hk : allKeys s1 = (eastView s ++ westView s).map Car.key ++ (s.west_next_id, WEST) ::
          ((s.threads.map Thread.car).map Car.key) := by
      unfold allKeys
      rw [hv, hev, ht]
      simp [Car.key, hd, hid]
    rw [hk]
    have hold : ((eastView s ++ westView s).map Car.key ++
        ((s.threads.map Thread.car).map Car.key)).Nodup := by
      have := h.keys_nodup
      simpa [allKeys] using this
    refine (List.perm_middle.nodup_iff).2 (List.nodup_cons.2 ⟨?_, hold⟩)
    intro hmem
    have hmem2 : (s.west_next_id, WEST) ∈ allKeys s := by
      simpa [allKeys] using hmem
    rcases hkb _ hmem2 with h1 | h1
    · exact hne h1.1.symm
    · exact absurd h1.2 (lt_irrefl _)
  · simp only [slotEntries, threadEntries, occupants, hz, ht]; exact h.zone_perm
  · simp only [holders, ht, hsem]; exact h.tokens
  · simp only [occupants, hz, hl]; exact h.lock
  · rw [ht, hs]; exact h.timer

theorem inv_enqueue (s : State) (h : Inv s) (dir amb : Int) (hd : dir = EAST ∨ dir = WEST) :
    Inv (enqueue_car s dir amb) := by
  rcases hd with rfl | rfl
  · by_cases hc : s.east_count < MAX_CARS
    · rw [enqueue_car_east_room s amb hc]
      have hlen : s.east_count < s.east_queue.length := by rw [h.east_len]; exact hc
      exact inv_push_east s _ h ⟨s.east_next_id, EAST, 1, 0, amb⟩
        (by simp [h.east_len]) hc (take_set_succ _ _ _ hlen) rfl rfl rfl rfl rfl rfl rfl rfl
        rfl rfl rfl
    · rw [enqueue_car_east_full s amb hc]
      refine ⟨h.east_len, h.west_len, h.zone_len, h.east_le, h.west_le, ?_,
        h.west_cars, ?_, h.keys_nodup, h.zone_perm, h.tokens, h.lock, h.timer⟩
      · intro c hcm
        have := h.east_cars c hcm
        exact ⟨this.1, by show c.id < s.east_next_id + 1; omega⟩
      · intro th hth
        rcases h.thread_cars th hth with h1 | h1
        · exact Or.inl ⟨h1.1, by show th.car.id < s.east_next_id + 1; omega⟩
        · exact Or.inr h1
  · by_cases hc : s.west_count < MAX_CARS
    · rw [enqueue_car_west_room s amb hc]
      have hlen : s.west_count < s.west_queue.length := by rw [h.west_len]; exact hc
      exact inv_push_west s _ h ⟨s.west_next_id, WEST, 1, 0, amb⟩
        (by simp [h.west_len]) hc (take_set_succ _ _ _ hlen) rfl rfl rfl rfl rfl rfl rfl rfl
        rfl rfl rfl
    · rw [enqueue_car_west_full s amb hc]
      refine ⟨h.east_len, h.west_len, h.zone_len, h.east_le, h.west_le, h.east_cars,
        ?_, ?_, h.keys_nodup, h.zone_perm, h.tokens, h.lock, h.timer⟩
      · intro c hcm
        have := h.west_cars c hcm
        exact ⟨this.1, by show c.id < s.west_next_id + 1; omega⟩
      · intro th hth
        rcases h.thread_cars th hth with h1 | h1
        · exact Or.inl h1
        · exact Or.inr ⟨h1.1, by show th.car.id < s.west_next_id + 1; omega⟩

/-! ### dispatcher -/

theorem inv_pop_east (s s1 : State) (h : Inv s) (pre post : List Car) (car : Car)
    (hv0 : eastView s = pre ++ car :: post) (hv : eastView s1 = pre ++ post)
    (hq : s1.east_queue.length = MAX_CARS) (hn : s1.east_count ≤ MAX_CARS)
    (ht : s1.threads = s.threads ++ [{ car := car, pc := PC.eligibility, t := 0 }])
    (hnext : s1.east_next_id = s.east_next_id)
    (hwq : s1.west_queue = s.west_queue) (hwc : s1.west_count = s.west_count)
    (hwn : s1.west_next_id = s.west_next_id) (hz : s1.construction = s.construction)
    (hl : s1.lane_dir = s.lane_dir) (hs : s1.stop = s.stop)
    (hsem : s1.construction_slots = s.construction_slots) : Inv s1 := by
  have hwv : westView s1 = westView s := by simp only [westView, hwq, hwc]
  have hcar : car ∈ eastView s := by rw [hv0]; simp
  refine ⟨hq, by rw [hwq]; exact h.west_len, by rw [hz]; exact h.zone_len, hn,
    by rw [hwc]; exact h.west_le, ?_, ?_, ?_, ?_, ?_, ?_, ?_, ?_⟩
  · intro c hcm
    rw [hv] at hcm
    rw [hnext]
    apply h.east_cars
    rw [hv0]
    rcases List.mem_append.1 hcm with hcm | hcm
    · exact List.mem_append_left _ hcm
    · exact List.mem_append_right _ (List.mem_cons_of_mem _ hcm)
  · rw [hwv, hwn]; exact h.west_cars
  · intro th hth
    rw [ht] at hth
    rw [hnext, hwn]
    rcases List.mem_append.1 hth with hth | hth
    · exact h.thread_cars th hth
    · simp at hth; subst hth
      exact Or.inl (h.east_cars car hcar)
  · have hp : (allKeys s1).Perm (allKeys s) := by
      unfold allKeys
      apply List.Perm.map
      rw [hv, hwv, ht, hv0]
      simp only [List.map_append, List.map_cons, List.map_nil, List.append_assoc,
        List.cons_append]
      refine List.Perm.trans ?_ List.perm_middle.symm
      have e : pre ++ (post ++ (westView s ++ (s.threads.map Thread.car ++ [car]))) =
          (pre ++ (post ++ (westView s ++ s.threads.map Thread.car))) ++ [car] := by
        simp only [List.append_assoc]
      rw [e]
      exact List.perm_append_singleton _ _
    exact (hp.nodup_iff).2 h.keys_nodup
  · have e : threadEntries s1 = threadEntries s := by
      simp [threadEntries, entriesOf, ht, List.filter_append, PC.placed]
    rw [e]
    simp only [slotEntries, occupants, hz]; exact h.zone_perm
  · have e : holders s1 = holders s := by
      simp [holders, holdersOf, ht, List.countP_append, PC.holder]
    rw [e, hsem]; exact h.tokens
  · simp only [occupants, hz, hl]; exact h.lock
  · intro th hth hp
    rw [ht] at hth
    rw [hs]
    rcases List.mem_append.1 hth with hth | hth
    · exact h.timer th hth hp
    · simp at hth; subst hth
      simp [PC.placed] at hp

theorem inv_pop_west (s s1 : State) (h : Inv s) (pre post : List Car) (car : Car)
    (hv0 : westView s = pre ++ car :: post) (hv : westView s1 = pre ++ post)
    (hq : s1.west_queue.length = MAX_CARS) (hn : s1.west_count ≤ MAX_CARS)
    (ht : s1.threads = s.threads ++ [{ car := car, pc := PC.eligibility, t := 0 }])
    (hnext : s1.west_next_id = s.west_next_id)
    (heq : s1.east_queue = s.east_queue) (hec : s1.east_count = s.east_count)
    (hen : s1.east_next_id = s.east_next_id) (hz : s1.construction = s.construction)
    (hl : s1.lane_dir = s.lane_dir) (hs : s1.stop = s.stop)
    (hsem : s1.construction_slots = s.construction_slots) : Inv s1 := by
  have hev : eastView s1 = eastView s := by simp only [eastView, heq, hec]
  have hcar : car ∈ westView s := by rw [hv0]; simp
  refine ⟨by rw [heq]; exact h.east_len, hq, by rw [hz]; exact h.zone_len,
    by rw [hec]; exact h.east_le, hn, ?_, ?_, ?_, ?_, ?_, ?_, ?_, ?_⟩
  · rw [hev, hen]; exact h.east_cars
  · intro c hcm
    rw [hv] at hcm
    rw [hnext]
    apply h.west_cars
    rw [hv0]
    rcases List.mem_append.1 hcm with hcm | hcm
    · exact List.mem_append_left _ hcm
    · exact List.mem_append_right _ (List.mem_cons_of_mem _ hcm)
  · intro th hth
    rw [ht] at hth
    rw [hnext, hen]
    rcases List.mem_append.1 hth with hth | hth
    · exact h.thread_cars th hth
    · simp at hth; subst hth
      exact Or.inr (h.west_cars car hcar)
  · have hp : (allKeys s1).Perm (allKeys s) := by
      unfold allKeys
      apply List.Perm.map
      rw [hv, hev, ht, hv0]
      simp only [List.map_append, List.map_cons, List.map_nil, List.append_assoc,
        List.cons_append]
      have e : eastView s ++ (pre ++ (post ++ (s.threads.map Thread.car ++ [car]))) =
          (eastView s ++ (pre ++ (post ++ s.threads.map Thread.car))) ++ [car] := by
        simp only [List.append_assoc]
      have e2 : eastView s ++ (pre ++ car :: (post ++ s.threads.map Thread.car)) =
          (eastView s ++ pre) ++ car :: (post ++ s.threads.map Thread.car) := by
        simp only [List.append_assoc]
      rw [e, e2]
      refine List.Perm.trans (List.perm_append_singleton _ _) ?_
      refine List.Perm.trans ?_ List.perm_middle.symm
      simp only [List.append_assoc]
      exact List.Perm.refl _
    exact (hp.nodup_iff).2 h.keys_nodup
  · have e : threadEntries s1 = threadEntries s := by
      simp [threadEntries, entriesOf, ht, List.filter_append, PC.placed]
    rw [e]
    simp only [slotEntries, occupants, hz]; exact h.zone_perm
  · have e : holders s1 = holders s := by
      simp [holders, holdersOf, ht, List.countP_append, PC.holder]
    rw [e, hsem]; exact h.tokens
  · simp only [occupants, hz, hl]; exact h.lock
  · intro th hth hp
    rw [ht] at hth
    rw [hs]
    rcases List.mem_append.1 hth with hth | hth
    · exact h.timer th hth hp
    · simp at hth; subst hth
      simp [PC.placed] at hp

theorem inv_dispatchBody (s : State) (h : Inv s)
    (hpos : 0 < (if s.green_dir = EAST then s.east_count else s.west_count)) :
    Inv (dispatchBody s) := by
  by_cases hg : s.green_dir = EAST
  · rw [if_pos hg] at hpos
    obtain ⟨pre, car, post, q1, h1, h2, h3, h4, _⟩ :=
      dispatchBody_east s hg hpos (by rw [h.east_len]; exact h.east_le)
    rw [h4]
    have hle := h.east_le
    exact inv_pop_east s _ h pre post car h1 h2 (by rw [← h.east_len]; exact h3)
      (by show s.east_count - 1 ≤ MAX_CARS; omega) rfl rfl rfl rfl rfl rfl rfl rfl rfl
  · rw [if_neg hg] at hpos
    obtain ⟨pre, car, post, q1, h1, h2, h3, h4, _⟩ :=
      dispatchBody_west s hg hpos (by rw [h.west_len]; exact h.west_le)
    rw [h4]
    have hle := h.west_le
    exact inv_pop_west s _ h pre post car h1 h2 (by rw [← h.west_len]; exact h3)
      (by show s.west_count - 1 ≤ MAX_CARS; omega) rfl rfl rfl rfl rfl rfl rfl rfl rfl

theorem inv_dispatcher (s : State) (h : Inv s) : Inv (dispatcher s) := by
  rcases dispatcher_cases s with h1 | ⟨h1, h2, _, _⟩
  · rw [h1]; exact h
  · rw [h1]; exact inv_dispatchBody s h h2

/-! ### car_thread: bookkeeping lemmas -/

theorem entriesOf_split_placed (l1 l2 : List Thread) (x : Thread) (h : x.pc.placed = true) :
    entriesOf (l1 ++ x :: l2) =
      entriesOf l1 ++ (x.car.id, x.car.direction, x.t) :: entriesOf l2 := by
  simp [entriesOf, List.filter_append, List.filter_cons, h]

theorem entriesOf_split_not (l1 l2 : List Thread) (x : Thread) (h : x.pc.placed = false) :
    entriesOf (l1 ++ x :: l2) = entriesOf l1 ++ entriesOf l2 := by
  simp [entriesOf, List.filter_append, List.filter_cons, h]

theorem holdersOf_split_holder (l1 l2 : List Thread) (x : Thread) (h : x.pc.holder = true) :
    holdersOf (l1 ++ x :: l2) = holdersOf l1 + holdersOf l2 + 1 := by
  simp [holdersOf, List.countP_append, List.countP_cons, h]; omega

theorem holdersOf_split_not (l1 l2 : List Thread) (x : Thread) (h : x.pc.holder = false) :
    holdersOf (l1 ++ x :: l2) = holdersOf l1 + holdersOf l2 := by
  simp [holdersOf, List.countP_append, List.countP_cons, h]

theorem length_entriesOf_le (l : List Thread) : (entriesOf l).length ≤ holdersOf l := by
  unfold entriesOf holdersOf
  rw [List.length_map, ← List.countP_eq_length_filter]
  apply List.countP_mono_left
  intro th _ hp
  cases hpc : th.pc <;> simp [hpc, PC.placed, PC.holder] at hp ⊢

/-- What a step of a car thread must re-establish; the rest of the invariant only
looks at the queues and at the cars the threads carry. -/
theorem inv_car_frame (s s1 : State) (h : Inv s) (l1 l2 : List Thread) (th th1 : Thread)
    (hs : s.threads = l1 ++ th :: l2) (hs1 : s1.threads = l1 ++ th1 :: l2)
    (hcar : th1.car = th.car)
    (heq : s1.east_queue = s.east_queue) (hec : s1.east_count = s.east_count)
    (hen : s1.east_next_id = s.east_next_id)
    (hwq : s1.west_queue = s.west_queue) (hwc : s1.west_count = s.west_count)
    (hwn : s1.west_next_id = s.west_next_id) (hstop : s1.stop = s.stop)
    (hzone : s1.construction.length = LANE_CAPACITY)
    (hperm : (slotEntries s1).Perm (threadEntries s1))
    (htok : s1.construction_slots + holders s1 = LANE_CAPACITY)
    (hlock : s1.lane_dir = -1 ↔ occupants s1 = [])
    (htimer : th1.pc.placed = true → 0 ≤ th1.t ∧ th1.t ≤ CROSSING_TIME ∧
      (th1.pc = PC.release → th1.t = CROSSING_TIME ∨ s1.stop ≠ 0)) : Inv s1 := by
  have hev : eastView s1 = eastView s := by simp only [eastView, heq, hec]
  have hwv : westView s1 = westView s := by simp only [westView, hwq, hwc]
  have hcars : s1.threads.map Thread.car = s.threads.map Thread.car := by
    rw [hs, hs1]; simp [hcar]
  refine ⟨by rw [heq]; exact h.east_len, by rw [hwq]; exact h.west_len, hzone,
    by rw [hec]; exact h.east_le, by rw [hwc]; exact h.west_le, ?_, ?_, ?_, ?_, hperm, htok,
    hlock, ?_⟩
  · rw [hev, hen]; exact h.east_cars
  · rw [hwv, hwn]; exact h.west_cars
  · intro x hx
    rw [hen, hwn]
    rw [hs1] at hx
    rcases List.mem_append.1 hx with hx | hx
    · exact h.thread_cars x (by rw [hs]; exact List.mem_append_left _ hx)
    · rcases List.mem_cons.1 hx with hx | hx
      · subst hx; rw [hcar]; exact h.thread_cars th (by rw [hs]; simp)
      · exact h.thread_cars x (by rw [hs]; simp [hx])
  · have e : allKeys s1 = allKeys s := by
      unfold allKeys; rw [hev, hwv, hcars]
    rw [e]; exact h.keys_nodup
  · intro x hx hp
    rw [hs1] at hx
    rcases List.mem_append.1 hx with hx | hx
    · rw [hstop]; exact h.timer x (by rw [hs]; exact List.mem_append_left _ hx) hp
    · rcases List.mem_cons.1 hx with hx | hx
      · subst hx; exact htimer hp
      · rw [hstop]; exact h.timer x (by rw [hs]; simp [hx]) hp

/-! ### car_thread: facts about the zone drawn from the invariant -/

theorem zone_two (s : State) (h : Inv s) : ∃ a b, s.construction = [a, b] :=
  List.length_eq_two.1 h.zone_len

theorem thread_keys_nodup (s : State) (h : Inv s) :
    (s.threads.map (Car.key ∘ Thread.car)).Nodup := by
  have h1 := h.keys_nodup
  unfold allKeys at h1
  rw [List.map_append] at h1
  have h2 := h1.of_append_right
  rwa [List.map_map] at h2

theorem threadEntries_nodup (s : State) (h : Inv s) : (threadEntries s).Nodup := by
  have h1 := thread_keys_nodup s h
  have h2 : ((s.threads.filter fun th => th.pc.placed).map (Car.key ∘ Thread.car)).Nodup :=
    List.Nodup.sublist (List.Sublist.map _ (List.filter_sublist _)) h1
  have h3 : (threadEntries s).map (fun e => (e.1, e.2.1)) =
      (s.threads.filter fun th => th.pc.placed).map (Car.key ∘ Thread.car) := by
    simp [threadEntries, entriesOf, List.map_map, Function.comp_def, Car.key]
  rw [← h3] at h2
  exact List.Nodup.of_map _ h2

theorem slotEntries_nodup (s : State) (h : Inv s) : (slotEntries s).Nodup :=
  (h.zone_perm.nodup_iff).2 (threadEntries_nodup s h)

theorem placed_entry_mem (s : State) (h : Inv s) (l1 l2 : List Thread) (th : Thread)
    (hs : s.threads = l1 ++ th :: l2) (hp : th.pc.placed = true) :
    (th.car.id, th.car.direction, th.t) ∈ slotEntries s := by
  apply (h.zone_perm.mem_iff).2
  unfold threadEntries
  rw [hs, entriesOf_split_placed _ _ _ hp]
  simp

theorem placed_entry_unique (s : State) (h : Inv s) (th : Thread) (hth : th ∈ s.threads)
    (e : Int × Int × Int) (he : e ∈ slotEntries s) (h1 : e.1 = th.car.id)
    (h2 : e.2.1 = th.car.direction) : e.2.2 = th.t := by
  have he2 := (h.zone_perm.mem_iff).1 he
  simp only [threadEntries, entriesOf, List.mem_map, List.mem_filter] at he2
  obtain ⟨th2, ⟨hth2, _⟩, rfl⟩ := he2
  have hk : (Car.key ∘ Thread.car) th2 = (Car.key ∘ Thread.car) th := by
    simp only [Function.comp, Car.key]
    simp only at h1 h2
    rw [h1, h2]
  have := List.inj_on_of_nodup_map (thread_keys_nodup s h) hth2 hth hk
  rw [this]

theorem slotEntries_two (s : State) (a b : Car) (hab : s.construction = [a, b]) :
    slotEntries s =
      (if a.active ≠ 0 then [(a.id, a.direction, a.progress)] else []) ++
      (if b.active ≠ 0 then [(b.id, b.direction, b.progress)] else []) := by
  unfold slotEntries occupants
  rw [hab]
  by_cases ha : a.active = 0 <;> by_cases hb : b.active = 0 <;>
    simp [List.filter_cons, ha, hb]

theorem occupants_two (s : State) (a b : Car) (hab : s.construction = [a, b]) :
    occupants s = (if a.active ≠ 0 then [a] else []) ++ (if b.active ≠ 0 then [b] else []) := by
  unfold occupants
  rw [hab]
  by_cases ha : a.active = 0 <;> by_cases hb : b.active = 0 <;>
    simp [List.filter_cons, ha, hb]

theorem length_slotEntries (s : State) : (slotEntries s).length = (occupants s).length := by
  simp [slotEntries]

/-- The number of occupied slots is at most the number of token holders. -/
theorem occupants_le_holders (s : State) (h : Inv s) :
    (occupants s).length ≤ holders s := by
  rw [← length_slotEntries, h.zone_perm.length_eq]
  exact length_entriesOf_le _

/-! ### car_thread: the placement section -/

theorem placeLoop_frame (s : State) (car : Car) (n i : Nat) :
    (placeLoop s car i n).threads = s.threads ∧
    (placeLoop s car i n).east_queue = s.east_queue ∧
    (placeLoop s car i n).east_count = s.east_count ∧
    (placeLoop s car i n).east_next_id = s.east_next_id ∧
    (placeLoop s car i n).west_queue = s.west_queue ∧
    (placeLoop s car i n).west_count = s.west_count ∧
    (placeLoop s car i n).west_next_id = s.west_next_id ∧
    (placeLoop s car i n).stop = s.stop ∧
    (placeLoop s car i n).green_dir = s.green_dir ∧
    (placeLoop s car i n).construction_slots = s.construction_slots := by
  induction n generalizing i with
  | zero => simp [placeLoop]
  | succ n ih =>
    unfold placeLoop
    by_cases hc : (s.construction.getD i Car.zero).active = 0
    · rw [if_pos hc]; simp
    · rw [if_neg hc]; exact ih (i + 1)

theorem placeLoop_two (s : State) (car a b : Car) (hab : s.construction = [a, b]) :
    (a.active = 0 →
      (placeLoop s car 0 LANE_CAPACITY).construction =
        [{ car with active := 1, progress := 0 }, b] ∧
      (placeLoop s car 0 LANE_CAPACITY).lane_dir =
        if s.lane_dir = -1 then car.direction else s.lane_dir) ∧
    (a.active ≠ 0 → b.active = 0 →
      (placeLoop s car 0 LANE_CAPACITY).construction =
        [a, { car with active := 1, progress := 0 }] ∧
      (placeLoop s car 0 LANE_CAPACITY).lane_dir =
        if s.lane_dir = -1 then car.direction else s.lane_dir) ∧
    (a.active ≠ 0 → b.active ≠ 0 → placeLoop s car 0 LANE_CAPACITY = s) := by
  refine ⟨fun ha => ?_, fun ha hb => ?_, fun ha hb => ?_⟩
  · simp [placeLoop, LANE_CAPACITY, hab, ha]
  · simp [placeLoop, LANE_CAPACITY, hab, ha, hb]
  · simp [placeLoop, LANE_CAPACITY, hab, ha, hb]

theorem placeLoop_zone (s : State) (car a b : Car) (hab : s.construction = [a, b])
    (hfree : a.active = 0 ∨ b.active = 0) (hdir : car.direction ≠ -1) :
    (placeLoop s car 0 LANE_CAPACITY).construction.length = LANE_CAPACITY ∧
    (slotEntries (placeLoop s car 0 LANE_CAPACITY)).Perm
      ((car.id, car.direction, 0) :: slotEntries s) ∧
    ((placeLoop s car 0 LANE_CAPACITY).lane_dir = -1 ↔
      occupants (placeLoop s car 0 LANE_CAPACITY) = []) := by
  obtain ⟨h1, h2, _⟩ := placeLoop_two s car a b hab
  have hlane : (if s.lane_dir = -1 then car.direction else s.lane_dir) ≠ -1 := by
    by_cases hl : s.lane_dir = -1
    · rw [if_pos hl]; exact hdir
    · rw [if_neg hl]; exact hl
  by_cases ha : a.active = 0
  · obtain ⟨hc, hl⟩ := h1 ha
    have hse := slotEntries_two _ _ _ hc
    have hoc := occupants_two _ _ _ hc
    have hse0 := slotEntries_two s a b hab
    refine ⟨by rw [hc]; rfl, ?_, ?_⟩
    · rw [hse, hse0]
      simp [ha]
    · rw [hl, hoc]
      simp [hlane]
  · have hb : b.active = 0 := by
      rcases hfree with h | h
      · exact absurd h ha
      · exact h
    obtain ⟨hc, hl⟩ := h2 ha hb
    have hse := slotEntries_two _ _ _ hc
    have hoc := occupants_two _ _ _ hc
    have hse0 := slotEntries_two s a b hab
    refine ⟨by rw [hc]; rfl, ?_, ?_⟩
    · rw [hse, hse0]
      simp [ha, hb]
      exact List.Perm.swap _ _ _
    · rw [hl, hoc]
      simp [hlane, ha]

/-- A thread about to place its car finds a free slot. -/
theorem free_slot_of_placement (s : State) (h : Inv s) (l1 l2 : List Thread) (th : Thread)
    (hs : s.threads = l1 ++ th :: l2) (hpc : th.pc = PC.placement) (a b : Car)
    (hab : s.construction = [a, b]) : a.active = 0 ∨ b.active = 0 := by
  by_contra hcon
  have ha : a.active ≠ 0 := fun e => hcon (Or.inl e)
  have hb : b.active ≠ 0 := fun e => hcon (Or.inr e)
  have hlen : (slotEntries s).length = 2 := by
    rw [slotEntries_two s a b hab]; simp [ha, hb]
  have h1 := h.zone_perm.length_eq
  have h2 := h.tokens
  unfold threadEntries at h1
  unfold holders at h2
  rw [hs, entriesOf_split_not _ _ _ (by rw [hpc]; rfl)] at h1
  rw [hs, holdersOf_split_holder _ _ _ (by rw [hpc]; rfl)] at h2
  rw [List.length_append] at h1
  have h3 := length_entriesOf_le l1
  have h4 := length_entriesOf_le l2
  simp only [LANE_CAPACITY] at h2
  omega

/-! ### car_thread: the progress update and the release section -/

theorem progressLoop_two (car a b : Car) (t : Int) :
    progressLoop [a, b] car t 0 LANE_CAPACITY =
      [if Matches a car then { a with progress := t + 1 } else a,
       if Matches b car then { b with progress := t + 1 } else b] := by
  unfold Matches
  by_cases ha : (a.active ≠ 0 ∧ a.id = car.id ∧ a.direction = car.direction)
  · by_cases hb : (b.active ≠ 0 ∧ b.id = car.id ∧ b.direction = car.direction)
    · simp only [progressLoop, LANE_CAPACITY, List.getD_cons_zero, List.getD_cons_succ,
        List.set_cons_zero, List.set_cons_succ, if_pos ha, if_pos hb]
    · simp only [progressLoop, LANE_CAPACITY, List.getD_cons_zero, List.getD_cons_succ,
        List.set_cons_zero, List.set_cons_succ, if_pos ha, if_neg hb]
  · by_cases hb : (b.active ≠ 0 ∧ b.id = car.id ∧ b.direction = car.direction)
    · simp only [progressLoop, LANE_CAPACITY, List.getD_cons_zero, List.getD_cons_succ,
        List.set_cons_zero, List.set_cons_succ, if_neg ha, if_pos hb]
    · simp only [progressLoop, LANE_CAPACITY, List.getD_cons_zero, List.getD_cons_succ,
        List.set_cons_zero, List.set_cons_succ, if_neg ha, if_neg hb]

theorem releaseLoop_two (car a b : Car) :
    releaseLoop [a, b] car 0 LANE_CAPACITY =
      if Matches a car then [{ a with active := 0, progress := 0 }, b]
      else if Matches b car then [a, { b with active := 0, progress := 0 }]
      else [a, b] := by
  unfold Matches
  by_cases ha : (a.active ≠ 0 ∧ a.id = car.id ∧ a.direction = car.direction)
  · by_cases hb : (b.active ≠ 0 ∧ b.id = car.id ∧ b.direction = car.direction)
    · simp only [releaseLoop, LANE_CAPACITY, List.getD_cons_zero, List.getD_cons_succ,
        List.set_cons_zero, List.set_cons_succ, if_pos ha, if_pos hb]
    · simp only [releaseLoop, LANE_CAPACITY, List.getD_cons_zero, List.getD_cons_succ,
        List.set_cons_zero, List.set_cons_succ, if_pos ha, if_neg hb]
  · by_cases hb : (b.active ≠ 0 ∧ b.id = car.id ∧ b.direction = car.direction)
    · simp only [releaseLoop, LANE_CAPACITY, List.getD_cons_zero, List.getD_cons_succ,
        List.set_cons_zero, List.set_cons_succ, if_neg ha, if_pos hb]
    · simp only [releaseLoop, LANE_CAPACITY, List.getD_cons_zero, List.getD_cons_succ,
        List.set_cons_zero, List.set_cons_succ, if_neg ha, if_neg hb]

theorem stillActive_two (a b : Car) :
    stillActive [a, b] 0 0 LANE_CAPACITY =
      if b.active ≠ 0 then 1 else if a.active ≠ 0 then 1 else 0 := by
  by_cases ha : a.active = 0 <;> by_cases hb : b.active = 0 <;>
    simp [stillActive, LANE_CAPACITY, ha, hb]

/-- Among the two slots exactly one is matched by a thread that occupies the zone, and
its progress is the `t` of the thread. -/
theorem matched_slot (s : State) (h : Inv s) (l1 l2 : List Thread) (th : Thread)
    (hs : s.threads = l1 ++ th :: l2) (hp : th.pc.placed = true) (a b : Car)
    (hab : s.construction = [a, b]) :
    (Matches a th.car ∧ ¬ Matches b th.car ∧ a.progress = th.t) ∨
    (¬ Matches a th.car ∧ Matches b th.car ∧ b.progress = th.t) := by
  have hmem := placed_entry_mem s h l1 l2 th hs hp
  have hth : th ∈ s.threads := by rw [hs]; simp
  have huniq := placed_entry_unique s h th hth
  have hnd := slotEntries_nodup s h
  have hse := slotEntries_two s a b hab
  have hpa : Matches a th.car → a.progress = th.t := by
    intro hm
    apply huniq (a.id, a.direction, a.progress) _ hm.2.1 hm.2.2
    rw [hse]; simp [hm.1]
  have hpb : Matches b th.car → b.progress = th.t := by
    intro hm
    apply huniq (b.id, b.direction, b.progress) _ hm.2.1 hm.2.2
    rw [hse]; simp [hm.1]
  by_cases ha : Matches a th.car
  · by_cases hb : Matches b th.car
    · exfalso
      rw [hse] at hnd
      have e1 := hpa ha
      have e2 := hpb hb
      simp [ha.1, hb.1, ha.2.1, ha.2.2, hb.2.1, hb.2.2, e1, e2] at hnd
    · exact Or.inl ⟨ha, hb, hpa ha⟩
  · by_cases hb : Matches b th.car
    · exact Or.inr ⟨ha, hb, hpb hb⟩
    · exfalso
      rw [hse] at hmem
      rcases List.mem_append.1 hmem with hm | hm
      · by_cases haa : a.active = 0
        · simp [haa] at hm
        · simp [haa] at hm
          exact ha ⟨haa, hm.1.symm, hm.2.1.symm⟩
      · by_cases hbb : b.active = 0
        · simp [hbb] at hm
        · simp [hbb] at hm
          exact hb ⟨hbb, hm.1.symm, hm.2.1.symm⟩

theorem progress_zone (s s1 : State) (h : Inv s) (l1 l2 : List Thread) (th : Thread)
    (hs : s.threads = l1 ++ th :: l2) (hp : th.pc.placed = true)
    (hc : s1.construction = progressLoop s.construction th.car th.t 0 LANE_CAPACITY) :
    s1.construction.length = LANE_CAPACITY ∧
    (∃ rest, (slotEntries s).Perm ((th.car.id, th.car.direction, th.t) :: rest) ∧
      (slotEntries s1).Perm ((th.car.id, th.car.direction, th.t + 1) :: rest)) ∧
    (occupants s1 = [] ↔ occupants s = []) := by
  obtain ⟨a, b, hab⟩ := zone_two s h
  rw [hab, progressLoop_two] at hc
  have hse := slotEntries_two s a b hab
  have hoc := occupants_two s a b hab
  have hse1 := slotEntries_two s1 _ _ hc
  have hoc1 := occupants_two s1 _ _ hc
  refine ⟨by rw [hc]; rfl, ?_, ?_⟩
  · rcases matched_slot s h l1 l2 th hs hp a b hab with ⟨ha, hb, hpr⟩ | ⟨ha, hb, hpr⟩
    · refine ⟨if b.active ≠ 0 then [(b.id, b.direction, b.progress)] else [], ?_, ?_⟩
      · rw [hse]; simp [ha.1, ha.2.1, ha.2.2, hpr]
      · rw [hse1]; simp [ha, hb, ha.1, ha.2.1, ha.2.2]
    · refine ⟨if a.active ≠ 0 then [(a.id, a.direction, a.progress)] else [], ?_, ?_⟩
      · have e0 : slotEntries s =
            (if a.active ≠ 0 then [(a.id, a.direction, a.progress)] else []) ++
              [(th.car.id, th.car.direction, th.t)] := by
          rw [hse]; simp [hb.1, hb.2.1, hb.2.2, hpr]
        rw [e0]
        exact List.perm_append_singleton _ _
      · have e1 : slotEntries s1 =
            (if a.active ≠ 0 then [(a.id, a.direction, a.progress)] else []) ++
              [(th.car.id, th.car.direction, th.t + 1)] := by
          rw [hse1]; simp [ha, hb, hb.1, hb.2.1, hb.2.2]
        rw [e1]
        exact List.perm_append_singleton _ _
  · rw [hoc, hoc1]
    by_cases ha : Matches a th.car <;> by_cases hb : Matches b th.car <;>
      by_cases haa : a.active = 0 <;> by_cases hbb : b.active = 0 <;>
      simp [ha, hb, haa, hbb]

theorem release_zone (s s1 : State) (h : Inv s) (l1 l2 : List Thread) (th : Thread)
    (hs : s.threads = l1 ++ th :: l2) (hp : th.pc.placed = true)
    (hc : s1.construction = releaseLoop s.construction th.car 0 LANE_CAPACITY)
    (hl : s1.lane_dir =
      if stillActive (releaseLoop s.construction th.car 0 LANE_CAPACITY) 0 0 LANE_CAPACITY = 0
      then -1 else s.lane_dir) :
    s1.construction.length = LANE_CAPACITY ∧
    (slotEntries s).Perm ((th.car.id, th.car.direction, th.t) :: slotEntries s1) ∧
    (s1.lane_dir = -1 ↔ occupants s1 = []) := by
  obtain ⟨a, b, hab⟩ := zone_two s h
  have hse := slotEntries_two s a b hab
  have hoc := occupants_two s a b hab
  have hlock := h.lock
  rw [hab] at hc hl
  rw [releaseLoop_two] at hc hl
  rcases matched_slot s h l1 l2 th hs hp a b hab with ⟨ha, hb, hpr⟩ | ⟨ha, hb, hpr⟩
  · rw [if_pos ha] at hc hl
    rw [stillActive_two] at hl
    have hse1 := slotEntries_two s1 _ _ hc
    have hoc1 := occupants_two s1 _ _ hc
    refine ⟨by rw [hc]; rfl, ?_, ?_⟩
    · rw [hse, hse1]; simp [ha.1, ha.2.1, ha.2.2, hpr]
    · rw [hl, hoc1]
      rw [hoc] at hlock
      by_cases hbb : b.active = 0
      · simp [hbb]
      · simp [hbb]
        simp [hbb] at hlock
        exact hlock
  · rw [if_neg ha, if_pos hb] at hc hl
    rw [stillActive_two] at hl
    have hse1 := slotEntries_two s1 _ _ hc
    have hoc1 := occupants_two s1 _ _ hc
    refine ⟨by rw [hc]; rfl, ?_, ?_⟩
    · have e0 : slotEntries s =
          (if a.active ≠ 0 then [(a.id, a.direction, a.progress)] else []) ++
            [(th.car.id, th.car.direction, th.t)] := by
        rw [hse]; simp [hb.1, hb.2.1, hb.2.2, hpr]
      have e1 : slotEntries s1 =
          (if a.active ≠ 0 then [(a.id, a.direction, a.progress)] else []) := by
        rw [hse1]; simp
      rw [e0, e1]
      exact List.perm_append_singleton _ _
    · rw [hl, hoc1]
      rw [hoc] at hlock
      by_cases haa : a.active = 0
      · simp [haa]
      · simp [haa]
        simp [haa] at hlock
        exact hlock

/-! ### car_thread: every step keeps the invariant -/

theorem perm_insert {α : Type} {X X1 A B : List α} {e : α} (h1 : X1.Perm (e :: X))
    (h2 : X.Perm (A ++ B)) : X1.Perm (A ++ e :: B) :=
  (h1.trans (List.Perm.cons e h2)).trans List.perm_middle.symm

theorem perm_remove {α : Type} {X X1 A B : List α} {e : α} (h1 : X.Perm (e :: X1))
    (h2 : X.Perm (A ++ e :: B)) : X1.Perm (A ++ B) :=
  List.Perm.cons_inv ((h1.symm.trans h2).trans List.perm_middle)

theorem inv_car_thread (s : State) (h : Inv s) (i : Nat) (th : Thread)
    (hi : s.threads[i]? = some th) (s1 : State) (hstep : car_thread s i th = some s1) :
    Inv s1 := by
  obtain ⟨l1, l2, hs, _, hset⟩ := set_split s.threads i th hi
  have hth : th ∈ s.threads := by rw [hs]; simp
  have hdir : th.car.direction ≠ -1 := by
    rcases h.thread_cars th hth with h1 | h1 <;> rw [h1.1] <;> decide
  unfold car_thread at hstep
  cases hpc : th.pc <;> rw [hpc] at hstep <;> simp only at hstep
  · -- eligibility
    have hmove : Inv { s with threads := s.threads.set i { th with pc := PC.sem_wait } } := by
      refine inv_car_frame s _ h l1 l2 th { th with pc := PC.sem_wait } hs (hset _) rfl
        rfl rfl rfl rfl rfl rfl rfl h.zone_len ?_ ?_ h.lock ?_
      · have := h.zone_perm
        simp only [threadEntries] at this ⊢
        rw [hs, entriesOf_split_not _ _ _ (by rw [hpc]; rfl)] at this
        rw [hset, entriesOf_split_not _ _ _ (by rfl)]
        exact this
      · have := h.tokens
        simp only [holders] at this ⊢
        rw [hs, holdersOf_split_not _ _ _ (by rw [hpc]; rfl)] at this
        rw [hset, holdersOf_split_not _ _ _ (by rfl)]
        exact this
      · intro hp; simp [PC.placed] at hp
    by_cases hst : s.stop ≠ 0
    · rw [if_pos hst] at hstep
      cases hstep; exact hmove
    · rw [if_neg hst] at hstep
      by_cases hal : allowed s th.car = true
      · rw [if_pos hal] at hstep
        cases hstep; exact hmove
      · rw [if_neg hal] at hstep
        cases hstep; exact h
  · -- sem_wait
    by_cases hsem : 0 < s.construction_slots
    · rw [if_pos hsem] at hstep
      cases hstep
      refine inv_car_frame s _ h l1 l2 th { th with pc := PC.placement } hs (hset _) rfl
        rfl rfl rfl rfl rfl rfl rfl h.zone_len ?_ ?_ h.lock ?_
      · have := h.zone_perm
        simp only [threadEntries] at this ⊢
        rw [hs, entriesOf_split_not _ _ _ (by rw [hpc]; rfl)] at this
        rw [hset, entriesOf_split_not _ _ _ (by rfl)]
        exact this
      · have := h.tokens
        simp only [holders] at this ⊢
        rw [hs, holdersOf_split_not _ _ _ (by rw [hpc]; rfl)] at this
        rw [hset, holdersOf_split_holder _ _ _ (by rfl)]
        omega
      · intro hp; simp [PC.placed] at hp
    · rw [if_neg hsem] at hstep
      cases hstep
  · -- placement
    cases hstep
    obtain ⟨a, b, hab⟩ := zone_two s h
    have hfree := free_slot_of_placement s h l1 l2 th hs hpc a b hab
    obtain ⟨hz1, hz2, hz3⟩ := placeLoop_zone s th.car a b hab hfree hdir
    obtain ⟨f1, f2, f3, f4, f5, f6, f7, f8, _, f10⟩ :=
      placeLoop_frame s th.car LANE_CAPACITY 0
    refine inv_car_frame s _ h l1 l2 th { th with pc := PC.crossing, t := 0 } hs
      (by show (placeLoop s th.car 0 LANE_CAPACITY).threads.set i _ = _; rw [f1]; exact hset _)
      rfl f2 f3 f4 f5 f6 f7 f8 hz1 ?_ ?_ hz3 ?_
    · have := h.zone_perm
      simp only [threadEntries] at this ⊢
      rw [hs, entriesOf_split_not _ _ _ (by rw [hpc]; rfl)] at this
      show (slotEntries (placeLoop s th.car 0 LANE_CAPACITY)).Perm
        (entriesOf ((placeLoop s th.car 0 LANE_CAPACITY).threads.set i _))
      rw [f1, hset, entriesOf_split_placed _ _ _ (by rfl)]
      exact perm_insert hz2 this
    · have := h.tokens
      simp only [holders] at this ⊢
      rw [hs, holdersOf_split_holder _ _ _ (by rw [hpc]; rfl)] at this
      show (placeLoop s th.car 0 LANE_CAPACITY).construction_slots +
        holdersOf ((placeLoop s th.car 0 LANE_CAPACITY).threads.set i _) = _
      rw [f1, f10, hset, holdersOf_split_holder _ _ _ (by rfl)]
      exact this
    · intro _
      refine ⟨le_refl _, by show (0 : Int) ≤ 3; decide, fun hc => ?_⟩
      cases hc
  · -- crossing
    have hp : th.pc.placed = true := by rw [hpc]; rfl
    obtain ⟨ht0, ht3, _⟩ := h.timer th hth hp
    by_cases hc : th.t < CROSSING_TIME ∧ s.stop = 0
    · rw [if_pos hc] at hstep
      cases hstep
      obtain ⟨hz1, ⟨rest, hz2, hz2b⟩, hz3⟩ :=
        progress_zone s
          { s with
            construction := progressLoop s.construction th.car th.t 0 LANE_CAPACITY,
            threads := s.threads.set i { th with pc := PC.crossing, t := th.t + 1 } }
          h l1 l2 th hs hp rfl
      refine inv_car_frame s _ h l1 l2 th { th with pc := PC.crossing, t := th.t + 1 } hs (hset _) rfl
        rfl rfl rfl rfl rfl rfl rfl hz1 ?_ ?_ ?_ ?_
      · have := h.zone_perm
        simp only [threadEntries] at this ⊢
        rw [hs, entriesOf_split_placed _ _ _ hp] at this
        rw [hset, entriesOf_split_placed _ _ _ (by rfl)]
        exact perm_insert hz2b (perm_remove hz2 this)
      · have := h.tokens
        simp only [holders] at this ⊢
        rw [hs, holdersOf_split_holder _ _ _ (by rw [hpc]; rfl)] at this
        rw [hset, holdersOf_split_holder _ _ _ (by rfl)]
        exact this
      · rw [hz3]; exact h.lock
      · intro _
        refine ⟨by show 0 ≤ th.t + 1; omega, ?_, fun hr => ?_⟩
        · have := hc.1
          simp only [CROSSING_TIME] at this ⊢
          show th.t + 1 ≤ 3; omega
        · cases hr
    · rw [if_neg hc] at hstep
      cases hstep
      refine inv_car_frame s _ h l1 l2 th { th with pc := PC.release } hs (hset _) rfl
        rfl rfl rfl rfl rfl rfl rfl h.zone_len ?_ ?_ h.lock ?_
      · have := h.zone_perm
        simp only [threadEntries] at this ⊢
        rw [hs, entriesOf_split_placed _ _ _ hp] at this
        rw [hset, entriesOf_split_placed _ _ _ (by rfl)]
        exact this
      · have := h.tokens
        simp only [holders] at this ⊢
        rw [hs, holdersOf_split_holder _ _ _ (by rw [hpc]; rfl)] at this
        rw [hset, holdersOf_split_holder _ _ _ (by rfl)]
        exact this
      · intro _
        refine ⟨ht0, ht3, fun _ => ?_⟩
        by_cases hst : s.stop = 0
        · left
          have : ¬ th.t < CROSSING_TIME := fun hlt => hc ⟨hlt, hst⟩
          show th.t = CROSSING_TIME
          omega
        · right; exact hst
  · -- release
    cases hstep
    have hp : th.pc.placed = true := by rw [hpc]; rfl
    obtain ⟨hz1, hz2, hz3⟩ :=
      release_zone s
        { releaseSection s th.car with
          threads := (releaseSection s th.car).threads.set i { th with pc := PC.sem_post } }
        h l1 l2 th hs hp rfl rfl
    refine inv_car_frame s _ h l1 l2 th { th with pc := PC.sem_post } hs (hset _) rfl
      rfl rfl rfl rfl rfl rfl rfl hz1 ?_ ?_ hz3 ?_
    · have := h.zone_perm
      simp only [threadEntries] at this ⊢
      rw [hs, entriesOf_split_placed _ _ _ hp] at this
      show (slotEntries _).Perm (entriesOf (s.threads.set i _))
      rw [hset, entriesOf_split_not _ _ _ (by rfl)]
      exact perm_remove hz2 this
    · have := h.tokens
      simp only [holders] at this ⊢
      rw [hs, holdersOf_split_holder _ _ _ (by rw [hpc]; rfl)] at this
      show s.construction_slots + holdersOf (s.threads.set i _) = _
      rw [hset, holdersOf_split_holder _ _ _ (by rfl)]
      exact this
    · intro hp2; simp [PC.placed] at hp2
  · -- sem_post
    cases hstep
    refine inv_car_frame s _ h l1 l2 th { th with pc := PC.exited } hs (hset _) rfl
      rfl rfl rfl rfl rfl rfl rfl h.zone_len ?_ ?_ h.lock ?_
    · have := h.zone_perm
      simp only [threadEntries] at this ⊢
      rw [hs, entriesOf_split_not _ _ _ (by rw [hpc]; rfl)] at this
      rw [hset, entriesOf_split_not _ _ _ (by rfl)]
      exact this
    · have := h.tokens
      simp only [holders] at this ⊢
      rw [hs, holdersOf_split_holder _ _ _ (by rw [hpc]; rfl)] at this
      rw [hset, holdersOf_split_not _ _ _ (by rfl)]
      omega
    · intro hp; simp [PC.placed] at hp
  · -- exited
    cases hstep

theorem setServicePC_frame (s : State) (w : Service) (pc : LoopPC) :
    (setServicePC s w pc).threads = s.threads ∧
    (setServicePC s w pc).lane_dir = s.lane_dir ∧
    (setServicePC s w pc).construction = s.construction ∧
    (setServicePC s w pc).green_dir = s.green_dir ∧
    (setServicePC s w pc).stop = s.stop ∧
    (setServicePC s w pc).construction_slots = s.construction_slots ∧
    eastView (setServicePC s w pc) = eastView s ∧
    westView (setServicePC s w pc) = westView s := by
  cases w <;> exact ⟨rfl, rfl, rfl, rfl, rfl, rfl, rfl, rfl⟩

theorem inv_setServicePC (s : State) (w : Service) (pc : LoopPC) (h : Inv s) :
    Inv (setServicePC s w pc) := by
  cases w <;>
    exact ⟨h.east_len, h.west_len, h.zone_len, h.east_le, h.west_le, h.east_cars,
      h.west_cars, h.thread_cars, h.keys_nodup, h.zone_perm, h.tokens, h.lock, h.timer⟩

/-- The shapes of an enabled step. -/
theorem step_cases (s s1 : State) (a : Action) (hstep : step s a = some s1) :
    (∃ w pc, a = Action.test w ∧ s1 = setServicePC s w pc) ∨
    (∃ dir amb, a = Action.enqueue dir amb ∧ (dir = EAST ∨ dir = WEST) ∧
      s1 = setServicePC (enqueue_car s dir amb) Service.generator LoopPC.test) ∨
    (a = Action.toggle ∧ s1 = setServicePC (controller s) Service.controller LoopPC.test) ∨
    (a = Action.dispatch ∧ s.dispatcher_pc = LoopPC.body ∧
      s1 = setServicePC (dispatcher s) Service.dispatcher LoopPC.test) ∨
    (a = Action.sigint ∧ s1 = { s with stop := 1 }) ∨
    (∃ i th, a = Action.car i ∧ s.threads[i]? = some th ∧ car_thread s i th = some s1) := by
  cases a with
  | test w =>
    left
    simp only [step] at hstep
    cases hpc : servicePC s w <;> rw [hpc] at hstep <;> simp only at hstep
    · cases hstep; exact ⟨w, _, rfl, rfl⟩
    · cases hstep
    · cases hstep
  | enqueue dir amb =>
    right; left
    simp only [step] at hstep
    by_cases hc : s.generator_pc = LoopPC.body ∧ (dir = EAST ∨ dir = WEST) ∧
        (amb = 0 ∨ amb = 1)
    · rw [if_pos hc] at hstep; cases hstep
      exact ⟨dir, amb, rfl, hc.2.1, rfl⟩
    · rw [if_neg hc] at hstep; cases hstep
  | toggle =>
    right; right; left
    simp only [step] at hstep
    by_cases hc : s.controller_pc = LoopPC.body
    · rw [if_pos hc] at hstep; cases hstep; exact ⟨rfl, rfl⟩
    · rw [if_neg hc] at hstep; cases hstep
  | dispatch =>
    right; right; right; left
    simp only [step] at hstep
    by_cases hc : s.dispatcher_pc = LoopPC.body
    · rw [if_pos hc] at hstep; cases hstep; exact ⟨rfl, hc, rfl⟩
    · rw [if_neg hc] at hstep; cases hstep
  | sigint =>
    right; right; right; right; left
    simp only [step] at hstep
    cases hstep; exact ⟨rfl, rfl⟩
  | car i =>
    right; right; right; right; right
    simp only [step] at hstep
    cases hi : s.threads[i]? with
    | none => rw [hi] at hstep; cases hstep
    | some th =>
      rw [hi] at hstep
      exact ⟨i, th, rfl, hi, hstep⟩

theorem inv_step (s s1 : State) (a : Action) (h : Inv s) (hstep : step s a = some s1) :
    Inv s1 := by
  rcases step_cases s s1 a hstep with ⟨w, pc, _, rfl⟩ | ⟨dir, amb, _, hd, rfl⟩ | ⟨_, rfl⟩ |
    ⟨_, _, rfl⟩ | ⟨_, rfl⟩ | ⟨i, th, _, hi, hc⟩
  · exact inv_setServicePC _ _ _ h
  · exact inv_setServicePC _ _ _ (inv_enqueue s h dir amb hd)
  · exact inv_setServicePC _ _ _ (inv_controller s h)
  · exact inv_setServicePC _ _ _ (inv_dispatcher s h)
  · exact inv_sigint s h
  · exact inv_car_thread s h i th hi s1 hc

theorem inv_run (acts : List Action) (s s1 : State) (h : Inv s)
    (hrun : run s acts = some s1) : Inv s1 := by
  induction acts generalizing s with
  | nil => simp only [run] at hrun; cases hrun; exact h
  | cons a as ih =>
    simp only [run] at hrun
    cases hst : step s a with
    | none => rw [hst] at hrun; cases hrun
    | some s2 =>
      rw [hst] at hrun
      exact ih s2 (inv_step s s2 a h hst) hrun

theorem inv_reachable (s : State) (h : Reachable s) : Inv s := by
  obtain ⟨acts, hrun⟩ := h
  exact inv_run acts init s inv_init hrun

theorem enqueue_car_frame (s : State) (dir amb : Int) :
    (enqueue_car s dir amb).threads = s.threads ∧
    (enqueue_car s dir amb).lane_dir = s.lane_dir ∧
    (enqueue_car s dir amb).construction = s.construction ∧
    (enqueue_car s dir amb).green_dir = s.green_dir ∧
    (enqueue_car s dir amb).stop = s.stop ∧
    (enqueue_car s dir amb).construction_slots = s.construction_slots := by
  unfold enqueue_car
  simp only
  split_ifs <;> exact ⟨rfl, rfl, rfl, rfl, rfl, rfl⟩

theorem dispatchBody_frame (s : State) :
    (dispatchBody s).lane_dir = s.lane_dir ∧
    (dispatchBody s).construction = s.construction ∧
    (dispatchBody s).green_dir = s.green_dir ∧
    (dispatchBody s).stop = s.stop ∧
    (dispatchBody s).construction_slots = s.construction_slots ∧
    ∃ th, (dispatchBody s).threads = s.threads ++ [th] := by
  unfold dispatchBody
  simp only
  split_ifs <;> exact ⟨rfl, rfl, rfl, rfl, rfl, _, rfl⟩

/-! ### How a single thread evolves -/

theorem car_thread_threads (s s1 : State) (i : Nat) (th : Thread)
    (hstep : car_thread s i th = some s1) :
    ∃ th1, nextThread s th = some th1 ∧ s1.threads = s.threads.set i th1 ∨
      (nextThread s th = some th ∧ s1 = s) := by
  unfold car_thread at hstep
  unfold nextThread
  cases hpc : th.pc <;> rw [hpc] at hstep <;> simp only at hstep ⊢
  · by_cases hst : s.stop ≠ 0
    · rw [if_pos hst] at hstep ⊢
      cases hstep; exact ⟨_, Or.inl ⟨rfl, rfl⟩⟩
    · rw [if_neg hst] at hstep ⊢
      by_cases hal : allowed s th.car = true
      · rw [if_pos hal] at hstep ⊢
        cases hstep; exact ⟨_, Or.inl ⟨rfl, rfl⟩⟩
      · rw [if_neg hal] at hstep ⊢
        cases hstep; exact ⟨th, Or.inr ⟨rfl, rfl⟩⟩
  · by_cases hsem : 0 < s.construction_slots
    · rw [if_pos hsem] at hstep ⊢
      cases hstep; exact ⟨_, Or.inl ⟨rfl, rfl⟩⟩
    · rw [if_neg hsem] at hstep; cases hstep
  · cases hstep
    refine ⟨_, Or.inl ⟨rfl, ?_⟩⟩
    show (placeLoop s th.car 0 LANE_CAPACITY).threads.set i _ = _
    rw [(placeLoop_frame s th.car LANE_CAPACITY 0).1]
  · by_cases hc : th.t < CROSSING_TIME ∧ s.stop = 0
    · rw [if_pos hc] at hstep ⊢
      cases hstep; exact ⟨_, Or.inl ⟨rfl, rfl⟩⟩
    · rw [if_neg hc] at hstep ⊢
      cases hstep; exact ⟨_, Or.inl ⟨rfl, rfl⟩⟩
  · cases hstep; exact ⟨_, Or.inl ⟨rfl, rfl⟩⟩
  · cases hstep; exact ⟨_, Or.inl ⟨rfl, rfl⟩⟩
  · cases hstep

theorem nextThread_car (s : State) (th th1 : Thread) (h : nextThread s th = some th1) :
    th1.car = th.car := by
  unfold nextThread at h
  cases hpc : th.pc <;> rw [hpc] at h <;> simp only at h
  · by_cases hst : s.stop ≠ 0
    · rw [if_pos hst] at h; cases h; rfl
    · rw [if_neg hst] at h
      by_cases hal : allowed s th.car = true
      · rw [if_pos hal] at h; cases h; rfl
      · rw [if_neg hal] at h; cases h; rfl
  · by_cases hsem : 0 < s.construction_slots
    · rw [if_pos hsem] at h; cases h; rfl
    · rw [if_neg hsem] at h; cases h
  · cases h; rfl
  · by_cases hc : th.t < CROSSING_TIME ∧ s.stop = 0
    · rw [if_pos hc] at h; cases h; rfl
    · rw [if_neg hc] at h; cases h; rfl
  · cases h; rfl
  · cases h; rfl
  · cases h

/-- Under any step the thread at index `i` stays the same, unless the step is its own. -/
theorem step_thread (s s1 : State) (a : Action) (i : Nat) (th : Thread)
    (hstep : step s a = some s1) (hi : s.threads[i]? = some th) :
    s1.threads[i]? = some th ∨
      (a = Action.car i ∧ ∃ th1, nextThread s th = some th1 ∧ s1.threads[i]? = some th1) := by
  have hlt : i < s.threads.length := by
    rcases List.getElem?_eq_some.1 hi with ⟨h, _⟩; exact h
  rcases step_cases s s1 a hstep with ⟨w, pc, _, rfl⟩ | ⟨dir, amb, _, _, rfl⟩ | ⟨_, rfl⟩ |
    ⟨_, _, rfl⟩ | ⟨_, rfl⟩ | ⟨j, thj, rfl, hj, hc⟩
  · left; rw [(setServicePC_frame _ _ _).1]; exact hi
  · left; rw [(setServicePC_frame _ _ _).1, (enqueue_car_frame s dir amb).1]; exact hi
  · left; rw [(setServicePC_frame _ _ _).1]; exact hi
  · left
    rw [(setServicePC_frame _ _ _).1]
    rcases dispatcher_cases s with h1 | ⟨h1, _, _, _⟩
    · rw [h1]; exact hi
    · rw [h1]
      obtain ⟨_, _, _, _, _, th0, this⟩ := dispatchBody_frame s
      rw [this, List.getElem?_append_left hlt]; exact hi
  · left; exact hi
  · obtain ⟨th1, h1 | h1⟩ := car_thread_threads s s1 j thj hc
    · by_cases hji : j = i
      · right
        subst hji
        rw [hi] at hj; cases hj
        refine ⟨rfl, th1, h1.1, ?_⟩
        rw [h1.2, List.getElem?_set]; simp [hlt]
      · left
        rw [h1.2, List.getElem?_set, if_neg hji]; exact hi
    · left; rw [h1.2]; exact hi

/-! ## Evaluating schedules -/

theorem reachable_of_run (acts : List Action) (s : State) (h : run init acts = some s) :
    Reachable s := ⟨acts, h⟩

theorem reachable_step (s s1 : State) (a : Action) (h : Reachable s)
    (hstep : step s a = some s1) : Reachable s1 := by
  obtain ⟨acts, hrun⟩ := h
  refine ⟨acts ++ [a], ?_⟩
  have gen : ∀ (l : List Action) (x : State), run x l = some s → run x (l ++ [a]) = some s1 := by
    intro l
    induction l with
    | nil =>
      intro x hx
      simp only [run] at hx; cases hx
      simp only [List.nil_append, run, hstep]
    | cons b l ih =>
      intro x hx
      simp only [run, List.cons_append] at hx ⊢
      cases hb : step x b with
      | none => rw [hb] at hx; cases hx
      | some y => rw [hb] at hx; exact ih y hx
  exact gen acts init hrun

theorem lockedState_run : run init lockSchedule = some lockedState := by decide

theorem midCrossingState_run : run init midCrossingSchedule = some midCrossingState := by
  decide

theorem placementState_run : run init placementSchedule = some placementState := by
  decide

theorem releaseState_run : run init releaseSchedule = some releaseState := by
  decide

/-! ### The dispatcher and the zone lock -/

theorem placeLoop_lane (s : State) (car : Car) (n i : Nat) :
    (placeLoop s car i n).lane_dir = s.lane_dir ∨ s.lane_dir = -1 := by
  induction n generalizing i with
  | zero => left; rfl
  | succ n ih =>
    unfold placeLoop
    by_cases hc : (s.construction.getD i Car.zero).active = 0
    · rw [if_pos hc]
      by_cases hl : s.lane_dir = -1
      · right; exact hl
      · left; show (if s.lane_dir = -1 then car.direction else s.lane_dir) = s.lane_dir
        rw [if_neg hl]
    · rw [if_neg hc]; exact ih (i + 1)

theorem car_thread_lane (s s1 : State) (i : Nat) (th : Thread)
    (hstep : car_thread s i th = some s1) :
    s1.lane_dir = s.lane_dir ∨ s1.lane_dir = -1 ∨ s.lane_dir = -1 := by
  unfold car_thread at hstep
  cases hpc : th.pc <;> rw [hpc] at hstep <;> simp only at hstep
  · by_cases hst : s.stop ≠ 0
    · rw [if_pos hst] at hstep; cases hstep; exact Or.inl rfl
    · rw [if_neg hst] at hstep
      by_cases hal : allowed s th.car = true
      · rw [if_pos hal] at hstep; cases hstep; exact Or.inl rfl
      · rw [if_neg hal] at hstep; cases hstep; exact Or.inl rfl
  · by_cases hsem : 0 < s.construction_slots
    · rw [if_pos hsem] at hstep; cases hstep; exact Or.inl rfl
    · rw [if_neg hsem] at hstep; cases hstep
  · cases hstep
    rcases placeLoop_lane s th.car LANE_CAPACITY 0 with h | h
    · exact Or.inl h
    · exact Or.inr (Or.inr h)
  · by_cases hc : th.t < CROSSING_TIME ∧ s.stop = 0
    · rw [if_pos hc] at hstep; cases hstep; exact Or.inl rfl
    · rw [if_neg hc] at hstep; cases hstep; exact Or.inl rfl
  · cases hstep
    show (if stillActive (releaseLoop s.construction th.car 0 LANE_CAPACITY) 0 0
        LANE_CAPACITY = 0 then (-1 : Int) else s.lane_dir) = s.lane_dir ∨ _
    by_cases hsa : stillActive (releaseLoop s.construction th.car 0 LANE_CAPACITY) 0 0
        LANE_CAPACITY = 0
    · right; left
      show (if stillActive (releaseLoop s.construction th.car 0 LANE_CAPACITY) 0 0
        LANE_CAPACITY = 0 then (-1 : Int) else s.lane_dir) = -1
      rw [if_pos hsa]
    · left; rw [if_neg hsa]
  · cases hstep; exact Or.inl rfl
  · cases hstep

theorem map_car_set (l : List Thread) (i : Nat) (th th1 : Thread) (hi : l[i]? = some th)
    (hcar : th1.car = th.car) : (l.set i th1).map Thread.car = l.map Thread.car := by
  obtain ⟨l1, l2, h1, _, h3⟩ := set_split l i th hi
  rw [h3, h1]; simp [hcar]

theorem car_thread_cars (s s1 : State) (i : Nat) (th : Thread) (hi : s.threads[i]? = some th)
    (hstep : car_thread s i th = some s1) :
    s1.threads.map Thread.car = s.threads.map Thread.car := by
  obtain ⟨th1, h1 | h1⟩ := car_thread_threads s s1 i th hstep
  · rw [h1.2]; exact map_car_set _ _ _ _ hi (nextThread_car s th th1 h1.1)
  · rw [h1.2]

/-- While the zone is locked to EAST a step neither hands a WEST vehicle to a thread
nor changes the lock, unless it empties the zone. -/
theorem step_locked_east (s s1 : State) (a : Action) (h : Inv s) (hl : s.lane_dir = EAST)
    (hstep : step s a = some s1) :
    westDispatched s1 = westDispatched s ∧ (occupants s1 ≠ [] → s1.lane_dir = EAST) := by
  have hne : ¬ (EAST = WEST) := by decide
  have hne1 : ¬ (EAST = (-1 : Int)) := by decide
  have h1 := inv_step s s1 a h hstep
  have hsvc : ∀ (x : State) (w : Service) (pc : LoopPC),
      westDispatched (setServicePC x w pc) = westDispatched x ∧
      (setServicePC x w pc).lane_dir = x.lane_dir := by
    intro x w pc
    obtain ⟨f1, f2, _⟩ := setServicePC_frame x w pc
    exact ⟨by simp only [westDispatched, f1], f2⟩
  rcases step_cases s s1 a hstep with ⟨w, pc, _, rfl⟩ | ⟨dir, amb, _, _, rfl⟩ | ⟨_, rfl⟩ |
    ⟨_, _, rfl⟩ | ⟨_, rfl⟩ | ⟨i, th, _, hi, hc⟩
  · exact ⟨(hsvc _ _ _).1, fun _ => by rw [(hsvc _ _ _).2]; exact hl⟩
  · obtain ⟨f1, f2, _⟩ := enqueue_car_frame s dir amb
    refine ⟨by rw [(hsvc _ _ _).1]; simp only [westDispatched, f1], fun _ => ?_⟩
    rw [(hsvc _ _ _).2, f2]; exact hl
  · exact ⟨(hsvc _ _ _).1, fun _ => by rw [(hsvc _ _ _).2]; exact hl⟩
  · rw [(hsvc _ _ _).1, (hsvc _ _ _).2]
    rcases dispatcher_cases s with e | ⟨e, hpos, hlane, _⟩
    · rw [e]; exact ⟨rfl, fun _ => hl⟩
    · have hg : s.green_dir = EAST := by
        rcases hlane with h2 | h2
        · rw [hl] at h2; exact absurd h2 hne1
        · rw [← h2]; exact hl
      rw [if_pos hg] at hpos
      obtain ⟨pre, car, post, q1, e1, _, _, e4, _⟩ :=
        dispatchBody_east s hg hpos (by rw [h.east_len]; exact h.east_le)
      have hcar : car.direction = EAST :=
        (h.east_cars car (by rw [e1]; simp)).1
      rw [e, e4]
      refine ⟨?_, fun _ => hl⟩
      simp [westDispatched, List.filter_append, hcar, hne]
  · exact ⟨rfl, fun _ => hl⟩
  · refine ⟨by simp only [westDispatched, car_thread_cars s s1 i th hi hc], fun hocc => ?_⟩
    rcases car_thread_lane s s1 i th hc with e | e | e
    · rw [e]; exact hl
    · exact absurd (h1.lock.1 e) hocc
    · rw [hl] at e; exact absurd e hne1

theorem runOccupied_locked_east (acts : List Action) (s s1 : State) (h : Inv s)
    (hl : s.lane_dir = EAST) (hrun : runOccupied s acts = some s1) :
    westDispatched s1 = westDispatched s := by
  induction acts generalizing s with
  | nil => simp only [runOccupied] at hrun; cases hrun; rfl
  | cons a as ih =>
    simp only [runOccupied] at hrun
    by_cases hocc : occupants s = []
    · rw [if_pos hocc] at hrun; cases hrun
    · rw [if_neg hocc] at hrun
      cases hst : step s a with
      | none => rw [hst] at hrun; cases hrun
      | some s2 =>
        rw [hst] at hrun
        obtain ⟨e1, e2⟩ := step_locked_east s s2 a h hl hst
        have h2 := inv_step s s2 a h hst
        cases as with
        | nil => simp only [runOccupied] at hrun; cases hrun; exact e1
        | cons b bs =>
          by_cases hocc2 : occupants s2 = []
          · simp only [runOccupied] at hrun
            rw [if_pos hocc2] at hrun; cases hrun
          · rw [ih s2 h2 (e2 hocc2) hrun, e1]

/-! ### Threads and their slots -/

theorem step_car (s : State) (i : Nat) (th : Thread) (hi : s.threads[i]? = some th) :
    step s (Action.car i) = car_thread s i th := by
  simp only [step, hi]

theorem mem_of_getElem? {l : List Thread} {i : Nat} {th : Thread} (hi : l[i]? = some th) :
    th ∈ l := List.mem_iff_getElem?.2 ⟨i, hi⟩

theorem matched_progress (s : State) (h : Inv s) (th : Thread) (hth : th ∈ s.threads)
    (c : Car) (hc : c ∈ s.construction) (hm : Matches c th.car) : c.progress = th.t := by
  apply placed_entry_unique s h th hth (c.id, c.direction, c.progress) _ hm.2.1 hm.2.2
  simp only [slotEntries, occupants, List.mem_map, List.mem_filter]
  exact ⟨c, ⟨hc, by simpa using hm.1⟩, rfl⟩

theorem placed_of_matches (s : State) (h : Inv s) (th : Thread) (hth : th ∈ s.threads)
    (c : Car) (hc : c ∈ s.construction) (hm : Matches c th.car) : th.pc.placed = true := by
  have he : (c.id, c.direction, c.progress) ∈ slotEntries s := by
    simp only [slotEntries, occupants, List.mem_map, List.mem_filter]
    exact ⟨c, ⟨hc, by simpa using hm.1⟩, rfl⟩
  have he2 := (h.zone_perm.mem_iff).1 he
  simp only [threadEntries, entriesOf, List.mem_map, List.mem_filter] at he2
  obtain ⟨th2, ⟨hth2, hp2⟩, heq⟩ := he2
  have hk : (Car.key ∘ Thread.car) th2 = (Car.key ∘ Thread.car) th := by
    simp only [Function.comp, Car.key]
    simp only [Prod.mk.injEq] at heq
    rw [heq.1, heq.2.1, hm.2.1, hm.2.2]
  have := List.inj_on_of_nodup_map (thread_keys_nodup s h) hth2 hth hk
  rw [← this]; exact hp2

theorem slot_of_placed (s : State) (h : Inv s) (th : Thread) (hth : th ∈ s.threads)
    (hp : th.pc.placed = true) :
    ∃ c ∈ s.construction, Matches c th.car ∧ c.progress = th.t := by
  obtain ⟨l1, l2, hs⟩ := List.append_of_mem hth
  have he := placed_entry_mem s h l1 l2 th hs hp
  simp only [slotEntries, occupants, List.mem_map, List.mem_filter] at he
  obtain ⟨c, ⟨hc, hact⟩, heq⟩ := he
  simp only [Prod.mk.injEq] at heq
  exact ⟨c, hc, ⟨by simpa using hact, heq.1, heq.2.1⟩, heq.2.2⟩

theorem occupies_iff_placed (s : State) (h : Inv s) (th : Thread) (hth : th ∈ s.threads) :
    Occupies s th ↔ th.pc.placed = true := by
  constructor
  · rintro ⟨c, hc, hm⟩
    exact placed_of_matches s h th hth c hc hm
  · intro hp
    obtain ⟨c, hc, hm, _⟩ := slot_of_placed s h th hth hp
    exact ⟨c, hc, hm⟩

theorem thread_of_active (s : State) (h : Inv s) (c : Car) (hc : c ∈ s.construction)
    (hact : c.active ≠ 0) : ∃ th ∈ s.threads, th.pc.placed = true ∧ Matches c th.car := by
  have he : (c.id, c.direction, c.progress) ∈ slotEntries s := by
    simp only [slotEntries, occupants, List.mem_map, List.mem_filter]
    exact ⟨c, ⟨hc, by simpa using hact⟩, rfl⟩
  have he2 := (h.zone_perm.mem_iff).1 he
  simp only [threadEntries, entriesOf, List.mem_map, List.mem_filter] at he2
  obtain ⟨th2, ⟨hth2, hp2⟩, heq⟩ := he2
  simp only [Prod.mk.injEq] at heq
  exact ⟨th2, hth2, hp2, hact, heq.1.symm, heq.2.1.symm⟩

theorem not_queued (s : State) (h : Inv s) (th : Thread) (hth : th ∈ s.threads) :
    ¬ Queued s th := by
  rintro ⟨c, hc, h1, h2⟩
  have hnd := h.keys_nodup
  unfold allKeys at hnd
  rw [List.map_append] at hnd
  have hdis := (List.nodup_append.1 hnd).2.2
  have hk1 : Car.key c ∈ (eastView s ++ westView s).map Car.key := List.mem_map_of_mem _ hc
  have hk2 : Car.key c ∈ (s.threads.map Thread.car).map Car.key := by
    have : Car.key c = Car.key th.car := by simp only [Car.key, h1, h2]
    rw [this]
    exact List.mem_map_of_mem _ (List.mem_map_of_mem _ hth)
  exact hdis hk1 hk2

theorem occupants_eq_nil_iff (s : State) :
    occupants s = [] ↔ ∀ c ∈ s.construction, c.active = 0 := by
  unfold occupants
  rw [List.filter_eq_nil_iff]
  constructor
  · intro h c hc
    have := h c hc
    simpa using this
  · intro h c hc
    simp [h c hc]

theorem run_reachable (acts : List Action) (s s1 : State) (h : Reachable s)
    (hrun : run s acts = some s1) : Reachable s1 := by
  induction acts generalizing s with
  | nil => simp only [run] at hrun; cases hrun; exact h
  | cons a as ih =>
    simp only [run] at hrun
    cases hst : step s a with
    | none => rw [hst] at hrun; cases hrun
    | some s2 =>
      rw [hst] at hrun
      exact ih s2 (reachable_step s s2 a h hst) hrun

/-- A thread that occupies a slot or is about to post is never blocked, and each of
its steps brings it closer to its return. -/
theorem own_step_progress (s : State) (i : Nat) (th : Thread) (hi : s.threads[i]? = some th)
    (hpc : th.pc.placed = true ∨ th.pc = PC.sem_post) :
    ∃ s1 th1, step s (Action.car i) = some s1 ∧ s1.threads[i]? = some th1 ∧
      th1.car = th.car ∧ remaining th1 < remaining th ∧
      (th1.pc.placed = true ∨ th1.pc = PC.sem_post ∨ th1.pc = PC.exited) ∧
      (th1.pc = PC.exited → th.pc = PC.sem_post) ∧
      (th1.pc = PC.sem_post → th.pc = PC.release) := by
  have hlt : i < s.threads.length := by
    rcases List.getElem?_eq_some.1 hi with ⟨h, _⟩; exact h
  rw [step_car s i th hi]
  unfold car_thread
  cases hp : th.pc <;> rw [hp] at hpc <;> simp only
  · rcases hpc with h | h <;> cases h
  · rcases hpc with h | h <;> cases h
  · rcases hpc with h | h <;> cases h
  · by_cases hc : th.t < CROSSING_TIME ∧ s.stop = 0
    · rw [if_pos hc]
      refine ⟨_, { th with pc := PC.crossing, t := th.t + 1 }, rfl, ?_, rfl, ?_, Or.inl rfl,
        (fun e => by cases e), (fun e => by cases e)⟩
      · show (s.threads.set i _)[i]? = _
        rw [List.getElem?_set]; simp [hlt]
      · have := hc.1
        simp only [remaining, hp, CROSSING_TIME] at this ⊢
        omega
    · rw [if_neg hc]
      refine ⟨_, { th with pc := PC.release }, rfl, ?_, rfl, ?_, Or.inl rfl,
        (fun e => by cases e), (fun e => by cases e)⟩
      · show (s.threads.set i _)[i]? = _
        rw [List.getElem?_set]; simp [hlt]
      · simp only [remaining, hp]
        omega
  · refine ⟨_, { th with pc := PC.sem_post }, rfl, ?_, rfl, ?_, Or.inr (Or.inl rfl),
      (fun e => by cases e), (fun _ => trivial)⟩
    · show (s.threads.set i _)[i]? = _
      rw [List.getElem?_set]; simp [hlt]
    · simp only [remaining, hp]; omega
  · refine ⟨_, { th with pc := PC.exited }, rfl, ?_, rfl, ?_, Or.inr (Or.inr rfl),
      (fun _ => trivial), (fun e => by cases e)⟩
    · show (s.threads.set i _)[i]? = _
      rw [List.getElem?_set]; simp [hlt]
    · simp only [remaining, hp]; omega
  · rcases hpc with h | h <;> cases h

theorem own_steps_exit (n : Nat) (s : State) (i : Nat) (th : Thread)
    (hi : s.threads[i]? = some th)
    (hpc : th.pc.placed = true ∨ th.pc = PC.sem_post ∨ th.pc = PC.exited)
    (hn : remaining th ≤ n) :
    ∃ k s1 th1, k ≤ n ∧ run s (List.replicate k (Action.car i)) = some s1 ∧
      s1.threads[i]? = some th1 ∧ th1.pc = PC.exited ∧ th1.car = th.car := by
  induction n generalizing s th with
  | zero =>
    have hex : th.pc = PC.exited := by
      cases hp : th.pc <;> rw [hp] at hpc <;> simp [remaining, hp, PC.placed] at hn hpc ⊢
    exact ⟨0, s, th, le_refl _, rfl, hi, hex, rfl⟩
  | succ n ih =>
    by_cases hex : th.pc = PC.exited
    · exact ⟨0, s, th, Nat.zero_le _, rfl, hi, hex, rfl⟩
    · have hpc2 : th.pc.placed = true ∨ th.pc = PC.sem_post := by
        rcases hpc with h | h | h
        · exact Or.inl h
        · exact Or.inr h
        · exact absurd h hex
      obtain ⟨s1, th1, h1, h2, h3, h4, h5, _, _⟩ := own_step_progress s i th hi hpc2
      obtain ⟨k, s2, th2, hk, hr, h6, h7, h8⟩ := ih s1 th1 h2 h5 (by omega)
      refine ⟨k + 1, s2, th2, by omega, ?_, h6, h7, by rw [h8, h3]⟩
      simp only [List.replicate_succ, run, h1]
      exact hr

theorem viewOf_green_east (s : State) (hg : s.green_dir = EAST) :
    viewOf s s.green_dir = eastView s := by
  simp [viewOf, queueOf, countOf, eastView, hg]

theorem viewOf_green_west (s : State) (hg : s.green_dir ≠ EAST) :
    viewOf s s.green_dir = westView s := by
  simp [viewOf, queueOf, countOf, westView, hg]

/-! ### Vehicles handed to threads, and the process -/

theorem run_thread (acts : List Action) (s s1 : State) (i : Nat) (th : Thread)
    (hrun : run s acts = some s1) (hi : s.threads[i]? = some th) :
    ∃ th1, s1.threads[i]? = some th1 ∧ th1.car = th.car := by
  induction acts generalizing s th with
  | nil => simp only [run] at hrun; cases hrun; exact ⟨th, hi, rfl⟩
  | cons a as ih =>
    simp only [run] at hrun
    cases hst : step s a with
    | none => rw [hst] at hrun; cases hrun
    | some s2 =>
      rw [hst] at hrun
      rcases step_thread s s2 a i th hst hi with h1 | ⟨_, th2, h2, h3⟩
      · exact ih s2 th hrun h1
      · obtain ⟨th1, e1, e2⟩ := ih s2 th2 hrun h3
        exact ⟨th1, e1, by rw [e2, nextThread_car s th th2 h2]⟩

/-- A dispatcher cycle that takes a vehicle out of the queues hands it to a new thread. -/
theorem dispatch_hands_over (s s1 : State) (car : Car) (h : Inv s)
    (hstep : step s Action.dispatch = some s1)
    (hin : car ∈ eastView s ++ westView s) (hout : car ∉ eastView s1 ++ westView s1) :
    s1.threads[s.threads.length]? = some { car := car, pc := PC.eligibility, t := 0 } := by
  rcases step_cases s s1 _ hstep with ⟨w, pc, e, _⟩ | ⟨dir, amb, e, _, _⟩ | ⟨e, _⟩ |
    ⟨_, _, rfl⟩ | ⟨e, _⟩ | ⟨i, th, e, _, _⟩
  · cases e
  · cases e
  · cases e
  · obtain ⟨f1, _, _, _, _, _, f7, f8⟩ :=
      setServicePC_frame (dispatcher s) Service.dispatcher LoopPC.test
    rw [f7, f8] at hout
    rw [f1]
    rcases dispatcher_cases s with e | ⟨e, hpos, _, _⟩
    · rw [e] at hout; exact absurd hin hout
    · rw [e] at hout ⊢
      by_cases hg : s.green_dir = EAST
      · rw [if_pos hg] at hpos
        obtain ⟨pre, c0, post, q1, e1, e2, _, e4, _⟩ :=
          dispatchBody_east s hg hpos (by rw [h.east_len]; exact h.east_le)
        have hv : eastView (dispatchBody s) = pre ++ post := by rw [e4]; exact e2
        have hw : westView (dispatchBody s) = westView s := by rw [e4]; rfl
        rw [hv, hw] at hout
        rw [e1] at hin
        have hc : car = c0 := by
          simp only [List.mem_append, List.mem_cons] at hin hout
          rcases hin with (h1 | h1 | h1) | h1
          · exact absurd (Or.inl (Or.inl h1)) hout
          · exact h1
          · exact absurd (Or.inl (Or.inr h1)) hout
          · exact absurd (Or.inr h1) hout
        rw [e4, hc]
        show (s.threads ++ [_])[s.threads.length]? = _
        rw [List.getElem?_append_right (le_refl _)]
        simp
      · rw [if_neg hg] at hpos
        obtain ⟨pre, c0, post, q1, e1, e2, _, e4, _⟩ :=
          dispatchBody_west s hg hpos (by rw [h.west_len]; exact h.west_le)
        have hv : westView (dispatchBody s) = pre ++ post := by rw [e4]; exact e2
        have hw : eastView (dispatchBody s) = eastView s := by rw [e4]; rfl
        rw [hv, hw] at hout
        rw [e1] at hin
        have hc : car = c0 := by
          simp only [List.mem_append, List.mem_cons] at hin hout
          rcases hin with h1 | h1 | h1 | h1
          · exact absurd (Or.inl h1) hout
          · exact absurd (Or.inr (Or.inl h1)) hout
          · exact h1
          · exact absurd (Or.inr (Or.inr h1)) hout
        rw [e4, hc]
        show (s.threads ++ [_])[s.threads.length]? = _
        rw [List.getElem?_append_right (le_refl _)]
        simp
  · cases e
  · cases e

theorem procStep_act (p p1 : Process) (a : Action) (h : procStep p (Event.act a) = some p1) :
    p.running = true ∧ p1.running = true ∧ step p.state a = some p1.state := by
  simp only [procStep] at h
  by_cases hr : p.running = true
  · rw [if_pos hr] at h
    cases hst : step p.state a with
    | none => rw [hst] at h; cases h
    | some s1 => rw [hst] at h; cases h; exact ⟨hr, rfl, rfl⟩
  · rw [if_neg hr] at h; cases h

theorem procStep_act_of_step (p : Process) (a : Action) (s1 : State)
    (hr : p.running = true) (h : step p.state a = some s1) :
    procStep p (Event.act a) = some { state := s1, running := true } := by
  simp only [procStep]
  rw [if_pos hr, h]

theorem procStep_main_return (p p1 : Process) (h : procStep p Event.main_return = some p1) :
    p1.state = p.state := by
  simp only [procStep] at h
  by_cases hr : p.running = true ∧ joined p.state
  · rw [if_pos hr] at h; cases h; rfl
  · rw [if_neg hr] at h; cases h

theorem procRun_reachable (es : List Event) (p p1 : Process) (h : Reachable p.state)
    (hrun : procRun p es = some p1) : Reachable p1.state := by
  induction es generalizing p with
  | nil => simp only [procRun] at hrun; cases hrun; exact h
  | cons e es ih =>
    simp only [procRun] at hrun
    cases hst : procStep p e with
    | none => rw [hst] at hrun; cases hrun
    | some p2 =>
      rw [hst] at hrun
      refine ih p2 ?_ hrun
      cases e with
      | act a => exact reachable_step _ _ a h (procStep_act p p2 a hst).2.2
      | main_return => rw [procStep_main_return p p2 hst]; exact h

theorem procReachable_state (p : Process) (h : ProcReachable p) : Reachable p.state := by
  obtain ⟨es, hrun⟩ := h
  exact procRun_reachable es procInit p ⟨[], rfl⟩ hrun

/-- Under any step a thread that occupies a slot, or is past its release, stays so;
its own step takes at least one off its remaining steps and no other step adds any. -/
theorem step_late (s s1 : State) (a : Action) (i : Nat) (th : Thread)
    (hstep : step s a = some s1) (hi : s.threads[i]? = some th)
    (hl : th.pc.placed = true ∨ th.pc = PC.sem_post ∨ th.pc = PC.exited) :
    ∃ th1, s1.threads[i]? = some th1 ∧ th1.car = th.car ∧
      (th1.pc.placed = true ∨ th1.pc = PC.sem_post ∨ th1.pc = PC.exited) ∧
      remaining th1 + (if a = Action.car i then 1 else 0) ≤ remaining th := by
  by_cases ha : a = Action.car i
  · subst ha
    rw [if_pos rfl]
    by_cases hex : th.pc = PC.exited
    · rw [step_car s i th hi] at hstep
      unfold car_thread at hstep
      rw [hex] at hstep
      cases hstep
    · have hpc : th.pc.placed = true ∨ th.pc = PC.sem_post := by
        rcases hl with h | h | h
        · exact Or.inl h
        · exact Or.inr h
        · exact absurd h hex
      obtain ⟨s2, th1, h1, h2, h3, h4, h5, _, _⟩ := own_step_progress s i th hi hpc
      rw [hstep] at h1
      cases h1
      exact ⟨th1, h2, h3, h5, by omega⟩
  · rw [if_neg ha]
    rcases step_thread s s1 a i th hstep hi with h1 | ⟨h1, _⟩
    · exact ⟨th, h1, rfl, hl, le_refl _⟩
    · exact absurd h1 ha

theorem procRun_late (es : List Event) (p p1 : Process) (i : Nat) (th : Thread)
    (hrun : procRun p es = some p1) (hi : p.state.threads[i]? = some th)
    (hl : th.pc.placed = true ∨ th.pc = PC.sem_post ∨ th.pc = PC.exited) :
    ∃ th1, p1.state.threads[i]? = some th1 ∧ th1.car = th.car ∧
      (th1.pc.placed = true ∨ th1.pc = PC.sem_post ∨ th1.pc = PC.exited) ∧
      remaining th1 + es.count (Event.act (Action.car i)) ≤ remaining th := by
  induction es generalizing p th with
  | nil =>
    simp only [procRun] at hrun; cases hrun
    exact ⟨th, hi, rfl, hl, by simp⟩
  | cons e es ih =>
    simp only [procRun] at hrun
    cases hst : procStep p e with
    | none => rw [hst] at hrun; cases hrun
    | some p2 =>
      rw [hst] at hrun
      cases e with
      | act a =>
        obtain ⟨th2, e1, e2, e3, e4⟩ :=
          step_late p.state p2.state a i th (procStep_act p p2 a hst).2.2 hi hl
        obtain ⟨th1, g1, g2, g3, g4⟩ := ih p2 th2 hrun e1 e3
        refine ⟨th1, g1, by rw [g2, e2], g3, ?_⟩
        rw [List.count_cons]
        by_cases ha : a = Action.car i
        · subst ha
          rw [if_pos rfl] at e4
          simp only [beq_self_eq_true, if_true]
          omega
        · rw [if_neg ha] at e4
          have hne : (Event.act a == Event.act (Action.car i)) = false := by
            simp [ha]
          rw [hne]
          simp only [Bool.false_eq_true, if_false]
          omega
      | main_return =>
        have hs := procStep_main_return p p2 hst
        obtain ⟨th1, g1, g2, g3, g4⟩ := ih p2 th hrun (by rw [hs]; exact hi) hl
        refine ⟨th1, g1, g2, g3, ?_⟩
        rw [List.count_cons]
        have hne : (Event.main_return == Event.act (Action.car i)) = false := by
          simp
        rw [hne]
        simp only [Bool.false_eq_true, if_false]
        omega

theorem procRun_replicate (k : Nat) (a : Action) (p : Process) (s1 : State)
    (hr : p.running = true) (h : run p.state (List.replicate k a) = some s1) :
    procRun p (List.replicate k (Event.act a)) = some { state := s1, running := true } := by
  induction k generalizing p with
  | zero =>
    simp only [List.replicate, run] at h; cases h
    simp only [List.replicate, procRun]
    cases p with
    | mk st r => simp only at hr; rw [hr]
  | succ k ih =>
    simp only [List.replicate_succ, run] at h
    cases hst : step p.state a with
    | none => rw [hst] at h; cases h
    | some s2 =>
      rw [hst] at h
      simp only [List.replicate_succ, procRun]
      rw [procStep_act_of_step p a s2 hr hst]
      exact ih { state := s2, running := true } rfl h

/-! # The claims -/

/-- C1 (single-direction lock): evaluation of the program on `raceSchedule`.  An EAST
car and a WEST car both pass the eligibility test while the zone is empty, and both are
placed: the reached state has `lane_dir = EAST`, both slots active, and a WEST car in
one of them. -/
theorem race_breaks_single_direction :
    ∃ s, run init raceSchedule = some s ∧ s.lane_dir = EAST ∧
      (occupants s).length = 2 ∧
      ∃ c ∈ s.construction, c.active ≠ 0 ∧ c.direction = WEST ∧ c.direction ≠ s.lane_dir := by
  have h : (run init raceSchedule).any (fun s =>
      decide (s.lane_dir = EAST ∧ (occupants s).length = 2 ∧
        ∃ c ∈ s.construction, c.active ≠ 0 ∧ c.direction = WEST ∧ c.direction ≠ s.lane_dir))
      = true := by decide
  cases hr : run init raceSchedule with
  | none => rw [hr] at h; cases h
  | some s =>
    rw [hr] at h
    exact ⟨s, rfl, of_decide_eq_true h⟩

/-- C2 (capacity): in every reachable state the zone has `LANE_CAPACITY` slots and the
number of slots with `active != 0` is at most `LANE_CAPACITY`. -/
theorem capacity_invariant (s : State) (h : Reachable s) :
    s.construction.length = LANE_CAPACITY ∧
      (s.construction.filter fun c => c.active ≠ 0).length ≤ LANE_CAPACITY := by
  have hz := (inv_reachable s h).zone_len
  refine ⟨hz, ?_⟩
  rw [← hz]
  exact List.length_filter_le _ _

theorem capacity_invariant_witness :
    Reachable lockedState ∧ (occupants lockedState).length = 2 ∧
      lockedState.construction.length = LANE_CAPACITY ∧
      (lockedState.construction.filter fun c => c.active ≠ 0).length ≤ LANE_CAPACITY :=
  ⟨reachable_of_run _ _ lockedState_run, by decide,
    capacity_invariant lockedState (reachable_of_run _ _ lockedState_run)⟩

/-- C3 (priority-aware selection): when the green queue is not empty, the zone is
unlocked or locked to the green direction, and some slot is inactive, one dispatcher
cycle takes from the green queue its first ambulance, or its head when it holds no
ambulance; the queue keeps the other vehicles in order, the count drops by one, and a
thread is spawned for the vehicle taken. -/
theorem dispatcher_selects_priority (s : State)
    (hlen : (queueOf s s.green_dir).length = MAX_CARS)
    (hcount : countOf s s.green_dir ≤ MAX_CARS)
    (hzone : s.construction.length = LANE_CAPACITY)
    (hne : viewOf s s.green_dir ≠ [])
    (hlane : s.lane_dir = -1 ∨ s.lane_dir = s.green_dir)
    (hfree : ∃ c ∈ s.construction, c.active = 0) :
    ∃ pre car post,
      viewOf s s.green_dir = pre ++ car :: post ∧ Selected pre car post ∧
      viewOf (dispatcher s) s.green_dir = pre ++ post ∧
      countOf (dispatcher s) s.green_dir + 1 = countOf s s.green_dir ∧
      (dispatcher s).threads = s.threads ++ [{ car := car, pc := PC.eligibility, t := 0 }] := by
  have hpos : 0 < countOf s s.green_dir := by
    rcases Nat.eq_zero_or_pos (countOf s s.green_dir) with h0 | h0
    · exfalso; apply hne; simp [viewOf, h0]
    · exact h0
  obtain ⟨c, hc, hc0⟩ := hfree
  obtain ⟨i, hi⟩ := List.mem_iff_getElem?.1 hc
  have hilt : i < LANE_CAPACITY := by
    rcases List.getElem?_eq_some.1 hi with ⟨h, _⟩
    rw [← hzone]; exact h
  have hrun := dispatcher_runs s hpos hlane i hilt (by rw [getD_eq_of_getElem? hi]; exact hc0)
  rw [hrun]
  by_cases hg : s.green_dir = EAST
  · simp only [viewOf, queueOf, countOf, hg, if_true] at hlen hcount hpos ⊢
    obtain ⟨pre, car, post, q1, h1, h2, _, h4, h5⟩ :=
      dispatchBody_east s hg hpos (by rw [hlen]; exact hcount)
    refine ⟨pre, car, post, h1, h5, ?_, ?_, ?_⟩
    · rw [h4]; exact h2
    · rw [h4]; show s.east_count - 1 + 1 = s.east_count; omega
    · rw [h4]
  · simp only [viewOf, queueOf, countOf, hg, if_false] at hlen hcount hpos ⊢
    obtain ⟨pre, car, post, q1, h1, h2, _, h4, h5⟩ :=
      dispatchBody_west s hg hpos (by rw [hlen]; exact hcount)
    refine ⟨pre, car, post, h1, h5, ?_, ?_, ?_⟩
    · rw [h4]; exact h2
    · rw [h4]; show s.west_count - 1 + 1 = s.west_count; omega
    · rw [h4]

theorem dispatcher_selects_priority_witness :
    (viewOf ambulanceState ambulanceState.green_dir).map (fun c => (c.id, c.is_ambulance)) =
        [(1, 0), (2, 1), (3, 0)] ∧
      (viewOf (dispatcher ambulanceState) ambulanceState.green_dir).map
        (fun c => (c.id, c.is_ambulance)) = [(1, 0), (3, 0)] ∧
      (dispatcher ambulanceState).threads.map (fun th => (th.car.id, th.car.is_ambulance)) =
        [(2, 1)] ∧
      ∃ pre car post,
        viewOf ambulanceState ambulanceState.green_dir = pre ++ car :: post ∧
        Selected pre car post ∧
        viewOf (dispatcher ambulanceState) ambulanceState.green_dir = pre ++ post ∧
        countOf (dispatcher ambulanceState) ambulanceState.green_dir + 1 =
          countOf ambulanceState ambulanceState.green_dir ∧
        (dispatcher ambulanceState).threads =
          ambulanceState.threads ++ [{ car := car, pc := PC.eligibility, t := 0 }] :=
  ⟨by decide, by decide, by decide,
    dispatcher_selects_priority ambulanceState (by decide) (by decide) (by decide)
      (by decide) (by decide) (by decide)⟩

/-- C5 (lock and occupancy agree): in every reachable state `lane_dir = -1` exactly
when no slot is active; a placement step sets `lane_dir` to the direction of the car when it
was unset and keeps it otherwise; a release step frees one slot and clears `lane_dir`
exactly when the releasing car was the only occupant. -/
theorem lock_iff_occupied (s : State) (h : Reachable s) :
    (s.lane_dir = -1 ↔ ∀ c ∈ s.construction, c.active = 0) ∧
    (∀ i th s1, s.threads[i]? = some th → th.pc = PC.placement →
      step s (Action.car i) = some s1 →
      s1.lane_dir = (if s.lane_dir = -1 then th.car.direction else s.lane_dir) ∧
      s1.lane_dir ≠ -1) ∧
    (∀ i th s1, s.threads[i]? = some th → th.pc = PC.release →
      step s (Action.car i) = some s1 →
      (occupants s1).length + 1 = (occupants s).length ∧
      (s1.lane_dir = -1 ↔ (occupants s).length = 1) ∧
      ((occupants s).length ≠ 1 → s1.lane_dir = s.lane_dir)) := by
  have hinv := inv_reachable s h
  refine ⟨?_, ?_, ?_⟩
  · rw [← occupants_eq_nil_iff]; exact hinv.lock
  · intro i th s1 hi hpc hstep
    have hinv1 := inv_step s s1 _ hinv hstep
    obtain ⟨l1, l2, hs, _, _⟩ := set_split s.threads i th hi
    obtain ⟨a, b, hab⟩ := zone_two s hinv
    have hfree := free_slot_of_placement s hinv l1 l2 th hs hpc a b hab
    obtain ⟨p1, p2, _⟩ := placeLoop_two s th.car a b hab
    have hdir : th.car.direction ≠ -1 := by
      rcases hinv.thread_cars th (mem_of_getElem? hi) with h1 | h1 <;> rw [h1.1] <;> decide
    rw [step_car s i th hi] at hstep
    unfold car_thread at hstep
    rw [hpc] at hstep
    simp only at hstep
    cases hstep
    have hl : (placeLoop s th.car 0 LANE_CAPACITY).lane_dir =
        if s.lane_dir = -1 then th.car.direction else s.lane_dir := by
      by_cases ha : a.active = 0
      · exact (p1 ha).2
      · rcases hfree with hf | hf
        · exact absurd hf ha
        · exact (p2 ha hf).2
    refine ⟨hl, ?_⟩
    show (placeLoop s th.car 0 LANE_CAPACITY).lane_dir ≠ -1
    rw [hl]
    by_cases hlane : s.lane_dir = -1
    · rw [if_pos hlane]; exact hdir
    · rw [if_neg hlane]; exact hlane
  · intro i th s1 hi hpc hstep
    have hinv1 := inv_step s s1 _ hinv hstep
    obtain ⟨l1, l2, hs, _, _⟩ := set_split s.threads i th hi
    have hp : th.pc.placed = true := by rw [hpc]; rfl
    rw [step_car s i th hi] at hstep
    have hlane := car_thread_lane s s1 i th hstep
    unfold car_thread at hstep
    rw [hpc] at hstep
    simp only at hstep
    cases hstep
    obtain ⟨_, hz2, hz3⟩ :=
      release_zone s
        { releaseSection s th.car with
          threads := (releaseSection s th.car).threads.set i { th with pc := PC.sem_post } }
        hinv l1 l2 th hs hp rfl rfl
    have hlen := hz2.length_eq
    rw [List.length_cons, length_slotEntries, length_slotEntries] at hlen
    refine ⟨hlen.symm, ?_, ?_⟩
    · rw [hz3, ← List.length_eq_zero]
      omega
    · intro hne
      rcases hlane with e | e | e
      · exact e
      · exfalso
        have := hz3.1 e
        rw [← List.length_eq_zero] at this
        omega
      · exfalso
        have := hinv.lock.1 e
        rw [← List.length_eq_zero] at this
        omega

theorem lock_iff_occupied_witness :
    (lockedState.lane_dir ≠ -1 ∧ ¬ ∀ c ∈ lockedState.construction, c.active = 0) ∧
    (lockedState.lane_dir = -1 ↔ ∀ c ∈ lockedState.construction, c.active = 0) ∧
    (placementState.lane_dir = -1 ∧ (firstThread placementState).car.direction = EAST) ∧
    ((afterFirst placementState).lane_dir =
        (if placementState.lane_dir = -1 then (firstThread placementState).car.direction
         else placementState.lane_dir) ∧
      (afterFirst placementState).lane_dir ≠ -1) ∧
    ((occupants (afterFirst releaseState)).length + 1 = (occupants releaseState).length ∧
      ((afterFirst releaseState).lane_dir = -1 ↔ (occupants releaseState).length = 1) ∧
      ((occupants releaseState).length ≠ 1 →
        (afterFirst releaseState).lane_dir = releaseState.lane_dir)) :=
  ⟨by decide, (lock_iff_occupied lockedState (reachable_of_run _ _ lockedState_run)).1,
    by decide,
    (lock_iff_occupied placementState (reachable_of_run _ _ placementState_run)).2.1 0
      (firstThread placementState) (afterFirst placementState) (by decide) (by decide)
      (by decide),
    (lock_iff_occupied releaseState (reachable_of_run _ _ releaseState_run)).2.2 0
      (firstThread releaseState) (afterFirst releaseState) (by decide) (by decide)
      (by decide)⟩

/-- C6 (bounded enqueue with drop): for a direction `dir` of EAST and WEST whose queue
array has `MAX_CARS` cells, `enqueue_car` below `MAX_CARS` keeps the live entries and
appends the new vehicle (id the previous next-id, direction `dir`, progress 0, the
given ambulance flag); at `MAX_CARS` it leaves that queue and its count as they are.
The other queue, the zone, `lane_dir` and `green_dir` never change, and in every
reachable state both counts are at most `MAX_CARS`. -/
theorem enqueue_car_contract :
    (∀ (s : State) (dir is_ambulance : Int), dir = EAST ∨ dir = WEST →
      (queueOf s dir).length = MAX_CARS →
      (countOf s dir < MAX_CARS →
        viewOf (enqueue_car s dir is_ambulance) dir =
          viewOf s dir ++ [{ id := nextIdOf s dir, direction := dir, active := 1,
                             progress := 0, is_ambulance := is_ambulance }] ∧
        countOf (enqueue_car s dir is_ambulance) dir = countOf s dir + 1) ∧
      (countOf s dir = MAX_CARS →
        queueOf (enqueue_car s dir is_ambulance) dir = queueOf s dir ∧
        countOf (enqueue_car s dir is_ambulance) dir = countOf s dir) ∧
      (∀ other, other = EAST ∨ other = WEST → other ≠ dir →
        queueOf (enqueue_car s dir is_ambulance) other = queueOf s other ∧
        countOf (enqueue_car s dir is_ambulance) other = countOf s other) ∧
      (enqueue_car s dir is_ambulance).construction = s.construction ∧
      (enqueue_car s dir is_ambulance).lane_dir = s.lane_dir ∧
      (enqueue_car s dir is_ambulance).green_dir = s.green_dir) ∧
    (∀ s, Reachable s → s.east_count ≤ MAX_CARS ∧ s.west_count ≤ MAX_CARS) := by
  have hne : ¬ (WEST = EAST) := by decide
  refine ⟨fun s dir amb hd hlen => ?_, fun s hs => ?_⟩
  · rcases hd with rfl | rfl
    · simp only [queueOf, countOf, nextIdOf, viewOf, if_true] at hlen ⊢
      refine ⟨fun hc => ?_, fun hc => ?_, fun other ho hoe => ?_, ?_, ?_, ?_⟩
      · rw [enqueue_car_east_room s amb hc]
        exact ⟨take_set_succ _ _ _ (by rw [hlen]; exact hc), rfl⟩
      · rw [enqueue_car_east_full s amb (by omega)]
        exact ⟨rfl, rfl⟩
      · rcases ho with rfl | rfl
        · exact absurd rfl hoe
        · simp only [hne, if_false]
          by_cases hc : s.east_count < MAX_CARS
          · rw [enqueue_car_east_room s amb hc]; exact ⟨rfl, rfl⟩
          · rw [enqueue_car_east_full s amb hc]; exact ⟨rfl, rfl⟩
      · by_cases hc : s.east_count < MAX_CARS
        · rw [enqueue_car_east_room s amb hc]
        · rw [enqueue_car_east_full s amb hc]
      · by_cases hc : s.east_count < MAX_CARS
        · rw [enqueue_car_east_room s amb hc]
        · rw [enqueue_car_east_full s amb hc]
      · by_cases hc : s.east_count < MAX_CARS
        · rw [enqueue_car_east_room s amb hc]
        · rw [enqueue_car_east_full s amb hc]
    · simp only [queueOf, countOf, nextIdOf, viewOf, hne, if_false] at hlen ⊢
      refine ⟨fun hc => ?_, fun hc => ?_, fun other ho hoe => ?_, ?_, ?_, ?_⟩
      · rw [enqueue_car_west_room s amb hc]
        exact ⟨take_set_succ _ _ _ (by rw [hlen]; exact hc), rfl⟩
      · rw [enqueue_car_west_full s amb (by omega)]
        exact ⟨rfl, rfl⟩
      · rcases ho with rfl | rfl
        · simp only [if_true]
          by_cases hc : s.west_count < MAX_CARS
          · rw [enqueue_car_west_room s amb hc]; exact ⟨rfl, rfl⟩
          · rw [enqueue_car_west_full s amb hc]; exact ⟨rfl, rfl⟩
        · exact absurd rfl hoe
      · by_cases hc : s.west_count < MAX_CARS
        · rw [enqueue_car_west_room s amb hc]
        · rw [enqueue_car_west_full s amb hc]
      · by_cases hc : s.west_count < MAX_CARS
        · rw [enqueue_car_west_room s amb hc]
        · rw [enqueue_car_west_full s amb hc]
      · by_cases hc : s.west_count < MAX_CARS
        · rw [enqueue_car_west_room s amb hc]
        · rw [enqueue_car_west_full s amb hc]
  · have h := inv_reachable s hs
    exact ⟨h.east_le, h.west_le⟩

theorem enqueue_car_contract_witness :
    (viewOf (enqueue_car init EAST 1) EAST =
        viewOf init EAST ++ [{ id := nextIdOf init EAST, direction := EAST, active := 1,
                               progress := 0, is_ambulance := 1 }] ∧
      countOf (enqueue_car init EAST 1) EAST = countOf init EAST + 1) ∧
    (viewOf init EAST).map Car.id = [1, 2, 3] ∧ nextIdOf init EAST = 4 ∧
    (init.east_count ≤ MAX_CARS ∧ init.west_count ≤ MAX_CARS) :=
  ⟨(enqueue_car_contract.1 init EAST 1 (Or.inl rfl) (by decide)).1 (by decide),
    by decide, by decide, enqueue_car_contract.2 init ⟨[], rfl⟩⟩

/-- C7 (the dispatcher respects the zone lock): in a state whose `lane_dir` is set and
differs from `green_dir` a dispatcher cycle changes nothing; and along any schedule
run from a reachable state locked to EAST, as long as the zone is occupied, no
dispatcher cycle hands a WEST vehicle to a thread. -/
theorem dispatcher_respects_lock :
    (∀ s : State, s.lane_dir ≠ -1 → s.lane_dir ≠ s.green_dir → dispatcher s = s) ∧
    (∀ (s s1 : State) (acts : List Action), Reachable s → s.lane_dir = EAST →
      runOccupied s acts = some s1 → westDispatched s1 = westDispatched s) := by
  refine ⟨fun s h1 h2 => ?_, fun s s1 acts hs hl hrun => ?_⟩
  · unfold dispatcher
    have : ¬ ((if s.green_dir = EAST then s.east_count else s.west_count) > 0 ∧
        (s.lane_dir = -1 ∨ s.lane_dir = s.green_dir)) := by
      rintro ⟨_, h3 | h3⟩
      · exact h1 h3
      · exact h2 h3
    simp only
    rw [if_neg this]
  · exact runOccupied_locked_east acts s s1 (inv_reachable s hs) hl hrun

theorem dispatcher_respects_lock_witness :
    (lockedState.lane_dir = EAST ∧ lockedState.green_dir = WEST ∧
      (occupants lockedState).length = 2 ∧ dispatcher lockedState = lockedState) ∧
    ((runOccupied lockedState lockedContinuation).isSome = true ∧
      ∀ s1, runOccupied lockedState lockedContinuation = some s1 →
        westDispatched s1 = westDispatched lockedState) :=
  ⟨⟨by decide, by decide, by decide,
      dispatcher_respects_lock.1 lockedState (by decide) (by decide)⟩,
    by decide,
    fun s1 h => dispatcher_respects_lock.2 lockedState s1 _
      (reachable_of_run _ _ lockedState_run) (by decide) h⟩

/-- C8 (progress monotonicity), as stated, fails: on `stopSchedule` SIGINT arrives when
the first car is at progress 1; the crossing loop ends, and the thread is about to run
its release section with its slot at progress 1, not `CROSSING_TIME`. -/
theorem stop_cuts_crossing_short :
    ∃ s, run init stopSchedule = some s ∧ s.stop ≠ 0 ∧
      ∃ th ∈ s.threads, th.pc = PC.release ∧
        ∃ c ∈ s.construction, Matches c th.car ∧ c.progress = 1 ∧
          c.progress ≠ CROSSING_TIME := by
  have h : (run init stopSchedule).any (fun s =>
      decide (s.stop ≠ 0 ∧
        ∃ th ∈ s.threads, th.pc = PC.release ∧
          ∃ c ∈ s.construction, Matches c th.car ∧ c.progress = 1 ∧
            c.progress ≠ CROSSING_TIME))
      = true := by decide
  cases hr : run init stopSchedule with
  | none => rw [hr] at h; cases h
  | some s =>
    rw [hr] at h
    exact ⟨s, rfl, of_decide_eq_true h⟩

/-- C8, amended: for every thread of a reachable state, its placement step leaves its
slot at progress 0; while it occupies a slot the progress of that slot equals its loop
variable `t`, lies between 0 and `CROSSING_TIME`, and no step of the program decreases
it; when the release step is about to run the progress is `CROSSING_TIME` unless `stop`
is set. -/
theorem progress_monotone (s : State) (h : Reachable s) (i : Nat) (th : Thread)
    (hi : s.threads[i]? = some th) :
    (th.pc = PC.placement →
      ∃ s1, step s (Action.car i) = some s1 ∧
        ∃ c ∈ s1.construction, Matches c th.car ∧ c.progress = 0) ∧
    (th.pc.placed = true →
      (∃ c ∈ s.construction, Matches c th.car) ∧
      ∀ c ∈ s.construction, Matches c th.car →
        c.progress = th.t ∧ 0 ≤ c.progress ∧ c.progress ≤ CROSSING_TIME ∧
        (th.pc = PC.release → c.progress = CROSSING_TIME ∨ s.stop ≠ 0)) ∧
    (th.pc.placed = true →
      ∀ a s1 th1, step s a = some s1 → s1.threads[i]? = some th1 → th1.pc.placed = true →
        ∀ c ∈ s.construction, Matches c th.car →
          ∀ c1 ∈ s1.construction, Matches c1 th1.car → c.progress ≤ c1.progress) := by
  have hinv := inv_reachable s h
  have hth := mem_of_getElem? hi
  have hlt : i < s.threads.length := by
    rcases List.getElem?_eq_some.1 hi with ⟨h1, _⟩; exact h1
  refine ⟨fun hpc => ?_, fun hp => ?_, fun hp a s1 th1 hstep hi1 hp1 c hc hm c1 hc1 hm1 => ?_⟩
  · have hstep : step s (Action.car i) =
        some { placeLoop s th.car 0 LANE_CAPACITY with
               threads := (placeLoop s th.car 0 LANE_CAPACITY).threads.set i
                 { th with pc := PC.crossing, t := 0 } } := by
      rw [step_car s i th hi]; unfold car_thread; rw [hpc]
    refine ⟨_, hstep, ?_⟩
    have hinv1 := inv_step s _ _ hinv hstep
    have hmem : ({ th with pc := PC.crossing, t := 0 } : Thread) ∈
        ((placeLoop s th.car 0 LANE_CAPACITY).threads.set i
          { th with pc := PC.crossing, t := 0 }) := by
      apply List.mem_iff_getElem?.2
      refine ⟨i, ?_⟩
      rw [(placeLoop_frame s th.car LANE_CAPACITY 0).1, List.getElem?_set]
      simp [hlt]
    obtain ⟨c, hc, hm, hpr⟩ := slot_of_placed _ hinv1 _ hmem rfl
    exact ⟨c, hc, hm, hpr⟩
  · obtain ⟨c0, hc0, hm0, _⟩ := slot_of_placed s hinv th hth hp
    refine ⟨⟨c0, hc0, hm0⟩, fun c hc hm => ?_⟩
    have e := matched_progress s hinv th hth c hc hm
    obtain ⟨t0, t3, tr⟩ := hinv.timer th hth hp
    rw [e]
    exact ⟨rfl, t0, t3, tr⟩
  · have hinv1 := inv_step s s1 a hinv hstep
    have e := matched_progress s hinv th hth c hc hm
    have e1 := matched_progress s1 hinv1 th1 (mem_of_getElem? hi1) c1 hc1 hm1
    rw [e, e1]
    rcases step_thread s s1 a i th hstep hi with h1 | ⟨_, th2, h2, h3⟩
    · rw [hi1] at h1; cases h1; exact le_refl _
    · rw [hi1] at h3; cases h3
      unfold nextThread at h2
      cases hpc : th.pc <;> rw [hpc] at h2 hp <;> simp only at h2
      · cases hp
      · cases hp
      · cases hp
      · by_cases hc2 : th.t < CROSSING_TIME ∧ s.stop = 0
        · rw [if_pos hc2] at h2; cases h2
          show th.t ≤ th.t + 1; omega
        · rw [if_neg hc2] at h2; cases h2; exact le_refl _
      · cases h2; exact le_refl _
      · cases hp
      · cases hp

theorem progress_monotone_witness :
    (midCrossingState.stop ≠ 0 ∧
      midCrossingState.threads.map (fun th => (th.pc, th.t)) = [(PC.crossing, 1)]) ∧
    ((∃ c ∈ midCrossingState.construction,
        Matches c (midCrossingState.threads.getD 0 ⟨Car.zero, PC.exited, 0⟩).car) ∧
      ∀ c ∈ midCrossingState.construction,
        Matches c (midCrossingState.threads.getD 0 ⟨Car.zero, PC.exited, 0⟩).car →
        c.progress = (midCrossingState.threads.getD 0 ⟨Car.zero, PC.exited, 0⟩).t ∧
        0 ≤ c.progress ∧ c.progress ≤ CROSSING_TIME ∧
        ((midCrossingState.threads.getD 0 ⟨Car.zero, PC.exited, 0⟩).pc = PC.release →
          c.progress = CROSSING_TIME ∨ midCrossingState.stop ≠ 0)) :=
  ⟨by decide,
    (progress_monotone midCrossingState (reachable_of_run _ _ midCrossingState_run) 0
      (midCrossingState.threads.getD 0 ⟨Car.zero, PC.exited, 0⟩) (by decide)).2.1 (by decide)⟩

/-- C9 (graceful drain), as stated, fails: on `exitSchedule` SIGINT arrives when the
first car is at progress 1 of 3; the three service threads return and `main`, which
joins only them, returns.  The process has ended, and with it the lifecycle of the car,
which never ran its release section: its slot is still active and `lane_dir` is set. -/
theorem exit_orphans_slot :
    ∃ p, procRun procInit exitSchedule = some p ∧ p.running = false ∧
      (occupants p.state).length = 1 ∧ p.state.lane_dir ≠ -1 ∧
      ∃ th ∈ p.state.threads, th.pc = PC.crossing ∧ ¬ Released th ∧
        ∃ c ∈ p.state.construction, Matches c th.car ∧ c.progress = 1 := by
  have h : (procRun procInit exitSchedule).any (fun p =>
      decide (p.running = false ∧
        (occupants p.state).length = 1 ∧ p.state.lane_dir ≠ -1 ∧
        ∃ th ∈ p.state.threads, th.pc = PC.crossing ∧ ¬ Released th ∧
          ∃ c ∈ p.state.construction, Matches c th.car ∧ c.progress = 1))
      = true := by decide
  cases hr : procRun procInit exitSchedule with
  | none => rw [hr] at h; cases h
  | some p =>
    rw [hr] at h
    exact ⟨p, rfl, of_decide_eq_true h⟩

/-- C9, amended (graceful drain of a lifecycle that runs to its return): in every
state the process reaches, each active slot belongs to a thread that has not yet run
its release section, no released thread still occupies a slot, and when all threads
have returned the zone is empty and unlocked.  While the process runs, a thread that
occupies a slot is never blocked: whatever `stop` is, its next step is enabled and
takes it closer to its return, which it reaches only through the release section and
`sem_post`; along any events of the process it stays on that path, and its own steps
are counted off its remaining steps; and at most `CROSSING_TIME + 3` of its own steps
take it to its return with its slot freed. -/
theorem graceful_drain :
    (∀ p, ProcReachable p →
      (∀ c ∈ p.state.construction, c.active ≠ 0 →
        ∃ th ∈ p.state.threads, th.pc.placed = true ∧ Matches c th.car) ∧
      (∀ th ∈ p.state.threads, Released th → ¬ Occupies p.state th) ∧
      ((∀ th ∈ p.state.threads, th.pc = PC.exited) →
        (∀ c ∈ p.state.construction, c.active = 0) ∧ p.state.lane_dir = -1)) ∧
    (∀ (p : Process) (i : Nat) (th : Thread), p.running = true →
      p.state.threads[i]? = some th → th.pc.placed = true ∨ th.pc = PC.sem_post →
      ∃ p1 th1, procStep p (Event.act (Action.car i)) = some p1 ∧ p1.running = true ∧
        p1.state.threads[i]? = some th1 ∧ remaining th1 < remaining th ∧
        (th1.pc = PC.exited → th.pc = PC.sem_post) ∧
        (th1.pc = PC.sem_post → th.pc = PC.release)) ∧
    (∀ (p p1 : Process) (es : List Event) (i : Nat) (th : Thread),
      procRun p es = some p1 → p.state.threads[i]? = some th → th.pc.placed = true →
      ∃ th1, p1.state.threads[i]? = some th1 ∧ th1.car = th.car ∧
        (th1.pc.placed = true ∨ th1.pc = PC.sem_post ∨ th1.pc = PC.exited) ∧
        remaining th1 + es.count (Event.act (Action.car i)) ≤ remaining th) ∧
    (∀ p, ProcReachable p → p.running = true →
      ∀ (i : Nat) (th : Thread), p.state.threads[i]? = some th → th.pc.placed = true →
      ∃ k p1 th1, k ≤ 6 ∧
        procRun p (List.replicate k (Event.act (Action.car i))) = some p1 ∧
        p1.state.threads[i]? = some th1 ∧ th1.pc = PC.exited ∧ th1.car = th.car ∧
        ¬ Occupies p1.state th1) := by
  have part1 : ∀ s, Reachable s →
      (∀ c ∈ s.construction, c.active ≠ 0 →
        ∃ th ∈ s.threads, th.pc.placed = true ∧ Matches c th.car) ∧
      (∀ th ∈ s.threads, Released th → ¬ Occupies s th) ∧
      ((∀ th ∈ s.threads, th.pc = PC.exited) →
        (∀ c ∈ s.construction, c.active = 0) ∧ s.lane_dir = -1) := by
    intro s hs
    have hinv := inv_reachable s hs
    refine ⟨fun c hc hact => thread_of_active s hinv c hc hact, fun th hth hrel hocc => ?_,
      fun hall => ?_⟩
    · have hp := (occupies_iff_placed s hinv th hth).1 hocc
      rcases hrel with e | e <;> rw [e] at hp <;> cases hp
    · have hnone : ∀ c ∈ s.construction, c.active = 0 := by
        intro c hc
        by_contra hact
        obtain ⟨th, hth, hp, _⟩ := thread_of_active s hinv c hc hact
        rw [hall th hth] at hp; cases hp
      exact ⟨hnone, hinv.lock.2 ((occupants_eq_nil_iff s).2 hnone)⟩
  refine ⟨fun p hp => part1 p.state (procReachable_state p hp), ?_, ?_, ?_⟩
  · intro p i th hr hi hpc
    obtain ⟨s1, th1, h1, h2, _, h4, _, h6, h7⟩ := own_step_progress p.state i th hi hpc
    exact ⟨_, th1, procStep_act_of_step p _ s1 hr h1, rfl, h2, h4, h6, h7⟩
  · intro p p1 es i th hrun hi hp
    exact procRun_late es p p1 i th hrun hi (Or.inl hp)
  · intro p hp hr i th hi hpl
    have hs := procReachable_state p hp
    have hinv := inv_reachable p.state hs
    obtain ⟨t0, t3, _⟩ := hinv.timer th (mem_of_getElem? hi) hpl
    have hrem : remaining th ≤ 6 := by
      cases hpc : th.pc <;> rw [hpc] at hpl <;> simp only [remaining, hpc, CROSSING_TIME] <;>
        omega
    obtain ⟨k, s1, th1, hk, hrn, h1, h2, h3⟩ :=
      own_steps_exit 6 p.state i th hi (Or.inl hpl) hrem
    refine ⟨k, _, th1, hk, procRun_replicate k _ p s1 hr hrn, h1, h2, h3, ?_⟩
    have hs1 := run_reachable _ p.state s1 hs hrn
    exact (part1 s1 hs1).2.1 th1 (mem_of_getElem? h1) (Or.inr h2)

theorem graceful_drain_witness :
    (midCrossingState.stop ≠ 0 ∧
      midCrossingState.threads.map (fun th => (th.pc, th.t)) = [(PC.crossing, 1)] ∧
      (occupants midCrossingState).map Car.progress = [1]) ∧
    ((procRun { state := midCrossingState, running := true }
        (List.replicate 3 (Event.act (Action.car 0)))).map
        (fun p => (p.state.threads.map Thread.pc, occupants p.state, p.state.lane_dir)) =
      some ([PC.exited], [], -1)) ∧
    (∃ k p1 th1, k ≤ 6 ∧
      procRun { state := midCrossingState, running := true }
        (List.replicate k (Event.act (Action.car 0))) = some p1 ∧
      p1.state.threads[0]? = some th1 ∧ th1.pc = PC.exited ∧
      th1.car = (firstThread midCrossingState).car ∧ ¬ Occupies p1.state th1) :=
  ⟨by decide, by decide,
    graceful_drain.2.2.2 { state := midCrossingState, running := true }
      ⟨midCrossingSchedule.map Event.act, by decide⟩ rfl 0
      (firstThread midCrossingState) (by decide) (by decide)⟩

/-- C10 (semaphore tokens cover slots): in every reachable state the semaphore value
plus the number of threads between `sem_wait` and `sem_post` is `LANE_CAPACITY`, and
the active slots are at most those threads.  A thread at its placement step finds an
inactive slot and the step writes its car into the first one; a thread at its release
step finds exactly one active slot with its id and direction and the step deactivates
that slot. -/
theorem semaphore_tokens_cover_slots (s : State) (h : Reachable s) :
    s.construction_slots + holders s = LANE_CAPACITY ∧
    (occupants s).length ≤ holders s ∧
    (∀ i th, s.threads[i]? = some th → th.pc = PC.placement →
      ∃ j, j < LANE_CAPACITY ∧ (s.construction.getD j Car.zero).active = 0 ∧
        (∀ k, k < j → (s.construction.getD k Car.zero).active ≠ 0) ∧
        ∃ s1, step s (Action.car i) = some s1 ∧
          s1.construction = s.construction.set j { th.car with active := 1, progress := 0 }) ∧
    (∀ i th, s.threads[i]? = some th → th.pc = PC.release →
      ∃ j c, s.construction[j]? = some c ∧ Matches c th.car ∧
        (∀ k c2, s.construction[k]? = some c2 → Matches c2 th.car → k = j) ∧
        ∃ s1, step s (Action.car i) = some s1 ∧
          s1.construction = s.construction.set j { c with active := 0, progress := 0 }) := by
  have hinv := inv_reachable s h
  refine ⟨hinv.tokens, occupants_le_holders s hinv, ?_, ?_⟩
  · intro i th hi hpc
    obtain ⟨l1, l2, hs, _, _⟩ := set_split s.threads i th hi
    obtain ⟨a, b, hab⟩ := zone_two s hinv
    have hfree := free_slot_of_placement s hinv l1 l2 th hs hpc a b hab
    obtain ⟨p1, p2, _⟩ := placeLoop_two s th.car a b hab
    have hstep : step s (Action.car i) =
        some { placeLoop s th.car 0 LANE_CAPACITY with
               threads := (placeLoop s th.car 0 LANE_CAPACITY).threads.set i
                 { th with pc := PC.crossing, t := 0 } } := by
      rw [step_car s i th hi]; unfold car_thread; rw [hpc]
    by_cases ha : a.active = 0
    · refine ⟨0, by decide, by rw [hab]; exact ha, fun k hk => by omega, _, hstep, ?_⟩
      show (placeLoop s th.car 0 LANE_CAPACITY).construction = _
      rw [(p1 ha).1, hab]; rfl
    · have hb : b.active = 0 := by
        rcases hfree with hf | hf
        · exact absurd hf ha
        · exact hf
      refine ⟨1, by decide, by rw [hab]; exact hb, fun k hk => ?_, _, hstep, ?_⟩
      · have : k = 0 := by omega
        subst this; rw [hab]; exact ha
      · show (placeLoop s th.car 0 LANE_CAPACITY).construction = _
        rw [(p2 ha hb).1, hab]; rfl
  · intro i th hi hpc
    obtain ⟨l1, l2, hs, _, _⟩ := set_split s.threads i th hi
    obtain ⟨a, b, hab⟩ := zone_two s hinv
    have hp : th.pc.placed = true := by rw [hpc]; rfl
    have hstep : step s (Action.car i) =
        some { releaseSection s th.car with
               threads := (releaseSection s th.car).threads.set i
                 { th with pc := PC.sem_post } } := by
      rw [step_car s i th hi]; unfold car_thread; rw [hpc]
    have hidx : ∀ k c2, s.construction[k]? = some c2 → k = 0 ∧ c2 = a ∨ k = 1 ∧ c2 = b := by
      intro k c2 hk
      rw [hab] at hk
      rcases k with _ | _ | k
      · left; simp at hk; exact ⟨rfl, hk.symm⟩
      · right; simp at hk; exact ⟨rfl, hk.symm⟩
      · simp at hk
    rcases matched_slot s hinv l1 l2 th hs hp a b hab with ⟨ha, hb, _⟩ | ⟨ha, hb, _⟩
    · refine ⟨0, a, by rw [hab]; rfl, ha, fun k c2 hk hm => ?_, _, hstep, ?_⟩
      · rcases hidx k c2 hk with ⟨e, _⟩ | ⟨_, e⟩
        · exact e
        · rw [e] at hm; exact absurd hm hb
      · show releaseLoop s.construction th.car 0 LANE_CAPACITY = _
        rw [hab, releaseLoop_two, if_pos ha]; rfl
    · refine ⟨1, b, by rw [hab]; rfl, hb, fun k c2 hk hm => ?_, _, hstep, ?_⟩
      · rcases hidx k c2 hk with ⟨_, e⟩ | ⟨e, _⟩
        · rw [e] at hm; exact absurd hm ha
        · exact e
      · show releaseLoop s.construction th.car 0 LANE_CAPACITY = _
        rw [hab, releaseLoop_two, if_neg ha, if_pos hb]; rfl

theorem semaphore_tokens_cover_slots_witness :
    (lockedState.construction_slots = 0 ∧ holders lockedState = 2 ∧
      (occupants lockedState).length = 2) ∧
    (lockedState.construction_slots + holders lockedState = LANE_CAPACITY ∧
      (occupants lockedState).length ≤ holders lockedState) ∧
    (∃ j, j < LANE_CAPACITY ∧ (placementState.construction.getD j Car.zero).active = 0 ∧
      (∀ k, k < j → (placementState.construction.getD k Car.zero).active ≠ 0) ∧
      ∃ s1, step placementState (Action.car 0) = some s1 ∧
        s1.construction = placementState.construction.set j
          { (firstThread placementState).car with active := 1, progress := 0 }) ∧
    (∃ j c, releaseState.construction[j]? = some c ∧
      Matches c (firstThread releaseState).car ∧
      (∀ k c2, releaseState.construction[k]? = some c2 →
        Matches c2 (firstThread releaseState).car → k = j) ∧
      ∃ s1, step releaseState (Action.car 0) = some s1 ∧
        s1.construction = releaseState.construction.set j
          { c with active := 0, progress := 0 }) :=
  ⟨by decide,
    ⟨(semaphore_tokens_cover_slots lockedState (reachable_of_run _ _ lockedState_run)).1,
      (semaphore_tokens_cover_slots lockedState (reachable_of_run _ _ lockedState_run)).2.1⟩,
    (semaphore_tokens_cover_slots placementState
      (reachable_of_run _ _ placementState_run)).2.2.1 0 (firstThread placementState)
      (by decide) (by decide),
    (semaphore_tokens_cover_slots releaseState
      (reachable_of_run _ _ releaseState_run)).2.2.2 0 (firstThread releaseState)
      (by decide) (by decide)⟩

end TrafficSim
